import Mathlib

/-!
A shallow embedding of the documentation indexing / retrieval utility
(markup-to-record extraction pipeline, keyword scoring engine, and result
formatter), together with proofs about its claimed properties.

Strings are modelled as `List Char` (`Str`), so that every text operation
used by the code (substring test, strip, split, lower/upper, joining) is an
executable structural function.  Python's `in` on strings is the infix
relation `<:+:`; `str.strip()` strips whitespace from both ends;
`str.lower()` / `str.upper()` are per-character case maps (the code only
feeds ASCII identifiers/titles through them).
-/

/-- Strings as character lists. -/
abbrev Str := List Char

/-- Convenience coercion from Lean string literals. -/
def lit (s : String) : Str := s.toList

/-- Python's `\s` whitespace class (space, tab, newline, return, vertical tab,
form feed). -/
def isWS (c : Char) : Bool :=
  c = ' ' || c = '\t' || c = '\n' || c = '\r' || c = '\x0b' || c = '\x0c'

/-- Strip characters satisfying `p` from both ends (Python `str.strip`). -/
def stripBoth (p : Char → Bool) (s : Str) : Str :=
  ((s.dropWhile p).reverse.dropWhile p).reverse

/-- Python `str.strip()` (whitespace strip). -/
def stripWS (s : Str) : Str := stripBoth isWS s

/-- Python `str.strip("\n")`. -/
def stripNLs (s : Str) : Str := stripBoth (fun c => c = '\n') s

/-- Python `str.lower()` (per-character; the data is ASCII). -/
def lowerStr (s : Str) : Str := s.map Char.toLower

/-- Python `str.upper()` (per-character; the data is ASCII). -/
def upperStr (s : Str) : Str := s.map Char.toUpper

/-- One step of whitespace-run collapsing; the flag records whether the
previous character was whitespace (in which case the run already emitted
its single replacement space). -/
def collapseGo : Bool → Str → Str
  | _, [] => []
  | true, c :: cs => if isWS c then collapseGo true cs else c :: collapseGo false cs
  | false, c :: cs => if isWS c then ' ' :: collapseGo true cs else c :: collapseGo false cs

/-- Python `re.sub(r'\s+', ' ', s)`: every maximal whitespace run becomes a
single space. -/
def collapseWS (s : Str) : Str := collapseGo false s

/-- Python `s.split(sep)` for a single-character separator. -/
def splitCh (sep : Char) : Str → List Str
  | [] => [[]]
  | c :: cs =>
    let r := splitCh sep cs
    if c = sep then [] :: r else (c :: r.headD []) :: r.tail

/-- Python `s.split(sep, 1)`: text before the first separator, and the
remainder after it when the separator occurs. -/
def splitFirstCh (sep : Char) : Str → Str × Option Str
  | [] => ([], none)
  | c :: cs =>
    if c = sep then ([], some cs)
    else
      let r := splitFirstCh sep cs
      (c :: r.1, r.2)

/-- Python `s.partition(sep)` for a single-character separator: the Bool
records whether the separator was found. -/
def partitionCh (sep : Char) (s : Str) : Str × Bool × Str :=
  match splitFirstCh sep s with
  | (a, some b) => (a, true, b)
  | (a, none) => (a, false, [])

/-- Python `sep.join(parts)`. -/
def joinWith (sep : Str) : List Str → Str
  | [] => []
  | [x] => x
  | x :: y :: xs => x ++ sep ++ joinWith sep (y :: xs)

/-- Python `"\n".join(parts)`. -/
def joinNL (parts : List Str) : Str := joinWith [ '\n'] parts

/-- Python `" ".join(parts)`. -/
def joinSp (parts : List Str) : Str := joinWith [ ' '] parts

/-- Worker for `wordsWS`; `cur` holds the current in-progress word reversed. -/
def wordsGo : Str → Str → List Str
  | [], cur => if cur.isEmpty then [] else [cur.reverse]
  | c :: cs, cur =>
    if isWS c then
      if cur.isEmpty then wordsGo cs [] else cur.reverse :: wordsGo cs []
    else wordsGo cs (c :: cur)

/-- Python `s.split()` with no argument: split on whitespace runs, dropping
empty fragments. -/
def wordsWS (s : Str) : List Str := wordsGo s []

/-- Lexicographic comparison of strings by code point, Python's `<=` on
`str` (used by tuple sort keys). -/
def lexLe : Str → Str → Bool
  | [], _ => true
  | _ :: _, [] => false
  | a :: as, b :: bs => if a < b then true else if b < a then false else lexLe as bs

/-- Leading whitespace of a line (`textwrap.dedent` margin candidate). -/
def leadWS (s : Str) : Str := s.takeWhile isWS

/-- A line consisting solely of whitespace (ignored by `textwrap.dedent`
when computing the margin). -/
def isWSOnly (s : Str) : Bool := (s.dropWhile isWS).isEmpty

/-- Longest common leading run of two strings (`textwrap.dedent`'s margin
truncation when neither indent is a prefix of the other). -/
def commonLead : Str → Str → Str
  | a :: as, b :: bs => if a = b then a :: commonLead as bs else []
  | _, _ => []

/-- Embeds `textwrap.dedent`'s margin: fold the indents of the non-blank lines,
keeping the common prefix. -/
def marginOf (lines : List Str) : Str :=
  (lines.foldl
    (fun acc l =>
      if isWSOnly l then acc
      else
        match acc with
        | none => some (leadWS l)
        | some m =>
          let ind := leadWS l
          if decide (m <+: ind) then some m
          else if decide (ind <+: m) then some ind
          else some (commonLead m ind))
    none).getD []

/-- Python `textwrap.dedent`: remove the common leading whitespace margin
from every line that starts with it. -/
def dedentStr (s : Str) : Str :=
  let lines := splitCh '\n' s
  let margin := marginOf lines
  if margin.isEmpty then s
  else joinNL (lines.map (fun l => if decide (margin <+: l) then l.drop margin.length else l))

/-- Embeds `html.escape` of one character (`&`, `<`, `>`, `"`, `'`). -/
def escChar (c : Char) : Str :=
  if c = '&' then lit ("&amp;")
  else if c = '<' then lit ("&lt;")
  else if c = '>' then lit ("&gt;")
  else if c = '"' then lit ("&quot;")
  else if c = Char.ofNat 39 then lit ("&#x27;")
  else [c]

/-- Python `html.escape` (with its default `quote=True`). -/
def htmlEscape (s : Str) : Str := s.flatMap escChar

example : stripWS (lit ("  a b  ")) = lit ("a b") := by decide
example : collapseWS (lit ("a \n\t b")) = lit ("a b") := by decide
example : splitCh '\n' (lit ("a\nb\n")) = [ lit ("a"), lit ("b"), []] := by decide
example : wordsWS (lit (" ab  cd ")) = [ lit ("ab"), lit ("cd")] := by decide
example : htmlEscape (lit ("a<b>&")) = lit ("a&lt;b&gt;&amp;") := by decide
example : dedentStr (lit ("    a\n        b")) = lit ("a\n    b") := by decide
example : joinNL [ lit ("x"), lit ("y")] = lit ("x\ny") := by decide
example : partitionCh ':' (lit ("a:b:c")) = (lit ("a"), true, lit ("b:c")) := by decide
example : lexLe (lit ("abc")) (lit ("abd")) = true := by decide

/-!
XML element model (the fragment of `xml.etree.ElementTree` the scripts use):
an element has a tag, attributes, the text before its first child
(`.text`), the text following its end tag inside the parent (`.tail`), and
a list of children.  `XList` is a specialised list so that structural
recursion over the nested tree is available to the kernel.
-/

mutual
inductive XElem : Type where
| mk (tag : Str) (attrs : List (Str × Str)) (text tail : Option Str) (children : XList)
inductive XList : Type where
| nil : XList
| cons (x : XElem) (xs : XList) : XList
end

def XElem.tag : XElem → Str
  | .mk t _ _ _ _ => t

def XElem.attrs : XElem → List (Str × Str)
  | .mk _ a _ _ _ => a

def XElem.text : XElem → Option Str
  | .mk _ _ tx _ _ => tx

def XElem.tail : XElem → Option Str
  | .mk _ _ _ tl _ => tl

def XList.toList : XList → List XElem
  | .nil => []
  | .cons x xs => x :: XList.toList xs

def XElem.children (x : XElem) : List XElem :=
  match x with
  | .mk _ _ _ _ cs => cs.toList

/-- Embeds `elem.attrib.get(name)`: first matching attribute. -/
def getAttr (x : XElem) (name : Str) : Option Str :=
  (x.attrs.find? (fun p => p.1 = name)).map Prod.snd

/-- An `Option Str` as the list of fragments it contributes to `itertext`. -/
def optFrag : Option Str → List Str
  | none => []
  | some s => [s]

mutual
/-- The text fragments produced by `elem.itertext()`: the element's own
text, then recursively each child's fragments followed by that child's
tail. -/
def xFrags : XElem → List Str
  | .mk _ _ tx _ cs => optFrag tx ++ xFragsList cs
def xFragsList : XList → List Str
  | .nil => []
  | .cons c cs => xFrags c ++ optFrag c.tail ++ xFragsList cs
end

/-- Embeds `"".join(elem.itertext())`. -/
def itertext (x : XElem) : Str := (xFrags x).flatten

mutual
/-- Embeds `elem.iter()`: the element and all its descendants in document
(pre-)order. -/
def iterNodes : XElem → List XElem
  | .mk t a tx tl cs => .mk t a tx tl cs :: iterNodesList cs
def iterNodesList : XList → List XElem
  | .nil => []
  | .cons c cs => iterNodes c ++ iterNodesList cs
end

/-- Embeds `elem.find(tag)` / first direct child with the given tag. -/
def findChild (x : XElem) (tag : Str) : Option XElem :=
  x.children.find? (fun c => c.tag = tag)

/-- Embeds `elem.findall(tag)`: all direct children with the given tag. -/
def findChildren (x : XElem) (tag : Str) : List XElem :=
  x.children.filter (fun c => c.tag = tag)

/-- Embeds `elem.findtext(tag, default)` (CPython: `e.text or ""` when the element
is found). -/
def findText (x : XElem) (tag : Str) (dfl : Str) : Str :=
  match findChild x tag with
  | none => dfl
  | some e => e.text.getD []

/-!
Reference resolver (`gen.py` `parse_config`).  The recursion of `resolve`
is not structural (a `config` child jumps to the option node found by id in
the whole document), so the embedding carries an explicit step budget
`fuel`; `resolveFuelOk` (claim C5) proves that the budget `bigFuel` used by
`parseConfig` is never exhausted, which is exactly the termination claim.
-/

/-- Embeds `root.find(f"option[@id='{ref_id}']")`: first direct `option` child of
the root whose id attribute matches. -/
def findOption (root : XElem) (cid : Str) : Option XElem :=
  (findChildren root (lit ("option"))).find? (fun o => getAttr o (lit ("id")) = some cid)

/-- Embeds `dict.get(key, default)` for the association list built by
`parse_config` (later entries overwrite earlier ones, as in a Python
dict). -/
def dictGet (m : List (Str × Str)) (key : Str) (dfl : Str) : Str :=
  match (m.reverse.find? (fun p => p.1 = key)) with
  | some p => p.2
  | none => dfl

/-- The placeholder for a missing reference id:
`f"[UNRESOLVED:{ref_id}]"`. -/
def unresolved (cid : Str) : Str := lit ("[UNRESOLVED:") ++ cid ++ lit ("]")

/-- The body of `parse_config.resolve`, iterating over a node's children
with the shared mutable `seen` set threaded through; returns the list of
`parts` and the final `seen`.  Every recursive call consumes one unit of
fuel; `none` means the budget ran out. -/
def resolveGo (root : XElem) : Nat → List XElem → List Str → Option (List Str × List Str)
  | 0, _, _ => none
  | _ + 1, [], seen => some ([], seen)
  | f + 1, c :: rest, seen =>
    if c.tag = lit ("config") then
      let cid := (getAttr c (lit ("id"))).getD []
      if cid ∈ seen then resolveGo root f rest seen
      else
        match findOption root cid with
        | some opt =>
          match resolveGo root f opt.children (cid :: seen) with
          | none => none
          | some (parts, seen2) =>
            let part := joinNL (parts.filter (fun p => !p.isEmpty))
            match resolveGo root f rest seen2 with
            | none => none
            | some (ps, seen3) => some (part :: ps, seen3)
        | none =>
          match resolveGo root f rest (cid :: seen) with
          | none => none
          | some (ps, seen2) => some (unresolved cid :: ps, seen2)
    else
      match resolveGo root f rest seen with
      | none => none
      | some (ps, seen2) => some (stripWS (itertext c) :: ps, seen2)

/-- Embeds `resolve(node)`: join the non-empty parts with newlines. -/
def resolveNode (root : XElem) (fuel : Nat) (node : XElem) : Option Str :=
  match resolveGo root fuel node.children [] with
  | none => none
  | some (parts, _) => some (joinNL (parts.filter (fun p => !p.isEmpty)))

/-- The ids of the root's `option` children, in document order. -/
def optionIds (root : XElem) : List Str :=
  (findChildren root (lit ("option"))).map (fun o => (getAttr o (lit ("id"))).getD [])

/-- An upper bound on the number of children of any option body. -/
def maxBody (root : XElem) : Nat :=
  ((findChildren root (lit ("option"))).map (fun o => o.children.length + 1)).foldl Nat.max 0

/-- A fuel budget sufficient for any top-level resolution (proved in claim
C5): one body's worth of steps per distinct referencable id, plus one. -/
def bigFuel (root : XElem) : Nat :=
  ((optionIds root).dedup.length + 1) * (maxBody root + 1)

/-- Embeds `parse_config`: resolve every option of the document, keyed by id.  The
`[]` fallback for exhausted fuel is proved unreachable in claim C5. -/
def parseConfig (root : XElem) : List (Str × Str) :=
  (findChildren root (lit ("option"))).map
    (fun o => ((getAttr o (lit ("id"))).getD [],
      (resolveNode root (bigFuel root) o).getD []))

/-- Builds an `XList` from an ordinary list (for writing elements conveniently). -/
def XList.ofList : List XElem → XList
  | [] => .nil
  | x :: xs => .cons x (XList.ofList xs)

/-- Element builder used for concrete inputs (tail defaults to `None`). -/
def xe (tag : String) (attrs : List (Str × Str)) (text : Option String) (children : List XElem) : XElem :=
  .mk (lit tag) attrs (text.map lit) none (XList.ofList children)

/-!
`gen.py` helpers: `DocItem`, `normalize_items`, and the
`handle_member_block` closure of `parse_type_page`.
-/

/-- Embeds `DocItem(name, type_, description, source_config, value)`. -/
structure DocItem where
  name : Str
  type : Option Str
  description : Str
  sourceConfig : Option Str
  value : Option Str
deriving DecidableEq, Repr

/-- The three raw item shapes collected by `parse_map` for a section:
`{"config_id", "resolved"}`, `{"raw"}`, `{"text"}`. -/
inductive RawItem : Type where
| resolved (txt : Str) (configId : Option Str)
| raw (txt : Str)
| txt (t : Str)
deriving DecidableEq, Repr

/-- Embeds `result[-1]["description"] += add` (append to the last item's
description). -/
def updLastDesc (add : Str) : List DocItem → List DocItem
  | [] => []
  | [x] => [{ x with description := x.description ++ add }]
  | x :: y :: xs => x :: updLastDesc add (y :: xs)

/-- One iteration of the `normalize_items` loop. -/
def stepNorm (res : List DocItem) (item : RawItem) : List DocItem :=
  match item with
  | .resolved r cfg =>
    let text := stripWS r
    let fl := splitFirstCh '\n' text
    let firstLine := fl.1
    let desc := match fl.2 with
      | some rest => stripWS rest
      | none => []
    if ':' ∈ firstLine then
      let p := splitFirstCh ':' firstLine
      res ++ [⟨stripWS p.1, some (stripWS (p.2.getD [])), desc, cfg, none⟩]
    else if !res.isEmpty then updLastDesc (' ' :: text) res
    else res ++ [⟨[], none, text, cfg, none⟩]
  | .raw r =>
    let p := partitionCh ':' r
    res ++ [⟨stripWS p.1, if !p.2.2.isEmpty then some (stripWS p.2.2) else none, [], none, none⟩]
  | .txt t =>
    if !res.isEmpty then updLastDesc (' ' :: stripWS t) res
    else res ++ [⟨[], none, stripWS t, none, none⟩]

/-- Embeds `normalize_items(items)`. -/
def normItems (items : List RawItem) : List DocItem :=
  items.foldl stepNorm []

/-- State of `handle_member_block`: the page-level `description_parts`, the
`members` list, and whether `current` points at the last appended member
(the Python closure's `current` variable aliases that dict). -/
structure MBState where
  descParts : List Str
  members : List DocItem
  hasCur : Bool
deriving DecidableEq, Repr

/-- Rewrite the description of the last item in place. -/
def setLastDesc (f : Str → Str) : List DocItem → List DocItem
  | [] => []
  | [x] => [{ x with description := f x.description }]
  | x :: y :: xs => x :: setLastDesc f (y :: xs)

/-- Attach a description fragment `x`: onto the current item when one
exists (`f"{cur_desc} {x}".strip() if cur_desc else x` after stripping the
stored description), otherwise onto the page-level description parts. -/
def mbAbsorb (st : MBState) (x : Str) : MBState :=
  let upd := fun old =>
    let cd := stripWS old
    if cd.isEmpty then x else stripWS (cd ++ ' ' :: x)
  if st.hasCur then { st with members := setLastDesc upd st.members }
  else { st with descParts := st.descParts ++ [x] }

/-- One child of a member block (`handle_member_block` loop body). -/
def stepMember (cfg : List (Str × Str)) (st : MBState) (child : XElem) : MBState :=
  if child.tag = lit ("category-title") then
    let raw := stripWS (itertext child)
    let item : DocItem :=
      if '=' ∈ raw then
        let p := splitFirstCh '=' raw
        ⟨stripWS p.1, none, [], none, some (stripWS (p.2.getD []))⟩
      else ⟨stripWS raw, none, [], none, none⟩
    { st with members := st.members ++ [item], hasCur := true }
  else if child.tag = lit ("subtext") then
    let descTxt := joinSp (((xFrags child).map stripWS).filter (fun t => !t.isEmpty))
    if descTxt.isEmpty then st else mbAbsorb st descTxt
  else if child.tag = lit ("config") then
    let cid := (getAttr child (lit ("id"))).getD []
    let text := dictGet cfg cid (unresolved cid)
    mbAbsorb st (stripWS text)
  else if child.tag = lit ("text") then
    let t := stripWS ((child.text).getD [])
    if t.isEmpty then st else mbAbsorb st t
  else st

/-- Embeds `handle_member_block(block)` run over a block's children. -/
def handleMemberBlock (cfg : List (Str × Str)) (st : MBState) (children : List XElem) : MBState :=
  children.foldl (stepMember cfg) st

/-!
`parse_map`'s description computation for one page (kind classification,
misc full-page flattening, config / text lookup, per-subtext fallback
scan, and the final normalization of lines 397-403 of `gen.py`).
-/

/-- Kind classification from the path (first match wins). -/
def classifyKind (path : Str) : Str :=
  if lit ("Available Enums") <:+: path then lit ("enum")
  else if lit ("Methods") <:+: path then lit ("method")
  else if lit ("Available Structs") <:+: path then lit ("struct")
  else if lit ("Available Types") <:+: path ∨ lit ("Advanced Types") <:+: path then lit ("type")
  else if lit ("Stream Descriptors") <:+: path then lit ("descriptor")
  else lit ("misc")

/-- Embeds `extract_full_description(page)` (misc pages): flatten every
config/text node under the page. -/
def extractFullDescription (page : XElem) (cfg : List (Str × Str)) : Str :=
  let parts := (iterNodes page).filterMap (fun n =>
    if n.tag = lit ("config") then
      match getAttr n (lit ("id")) with
      | some cid => if cid.isEmpty then none else some (dictGet cfg cid (unresolved cid))
      | none => none
    else if n.tag = lit ("text") then
      match n.text with
      | some t => if t.isEmpty then none else some (stripWS t)
      | none => none
    else none)
  stripWS (joinSp parts)

/-- The `if not description:` fallback loop over the page's `subtext`
children: within one subtext the first non-blank text node is taken, then
any config node overwrites it (last config wins); move on while the result
is still empty. -/
def fallbackScan (cfg : List (Str × Str)) : List XElem → Str
  | [] => []
  | sub :: rest =>
    let d1 := ((findChildren sub (lit ("text"))).filterMap (fun tn =>
      match tn.text with
      | some t => if (stripWS t).isEmpty then none else some (stripWS t)
      | none => none)).headD []
    let d2 := (findChildren sub (lit ("config"))).foldl (fun acc cn =>
      match getAttr cn (lit ("id")) with
      | some cid => if cid.isEmpty then acc else dictGet cfg cid (unresolved cid)
      | none => acc) d1
    if d2.isEmpty then fallbackScan cfg rest else d2

/-- The `description` stored in the record built by `parse_map` for one
page: source selection, fallback, `textwrap.dedent(...).strip("\n")`,
whitespace collapsing, and the final `(description or " ").strip()`. -/
def recordDescription (path : Str) (page : XElem) (cfg : List (Str × Str)) : Str :=
  let kind := classifyKind path
  let d0 :=
    if kind = lit ("misc") then extractFullDescription page cfg
    else
      match findChild page (lit ("config")) with
      | some dn => dictGet cfg ((getAttr dn (lit ("id"))).getD []) []
      | none => findText page (lit ("text")) []
  let d1 := if d0.isEmpty then fallbackScan cfg (findChildren page (lit ("subtext"))) else d0
  let d2 := stripNLs (dedentStr d1)
  let d3 := stripWS (collapseWS d2)
  stripWS (if d3.isEmpty then [ ' '] else d3)

example : normItems [ .txt (lit ("B"))] = [⟨[], none, lit ("B"), none, none⟩] := by decide
example :
    normItems [ .resolved (lit ("x: int\nA")) none, .txt (lit ("B"))] =
      [⟨lit ("x"), some (lit ("int")), lit ("A B"), none, none⟩] := by decide
example : classifyKind (lit ("/PyTgCalls/Methods/play.xml")) = lit ("method") := by decide
example :
    recordDescription (lit ("/x")) (xe ("page") [] none [xe ("h1") [] (some ("T")) []]) [] = [] := by
  decide

/-!
Search module (`src/modules/search.py`): typed records loaded from the
snapshot, the record scorer, and `DocSearch.search`.
-/

/-- One raw item dict of a `Section` (keys `name` / `type` / `description`
accessed with `.get(...) or ""`). -/
structure SecItem where
  name : Option Str
  type : Option Str
  description : Option Str
deriving DecidableEq, Repr

/-- Embeds `Section(title, items)`. -/
structure DocSection where
  title : Str
  items : List SecItem
deriving DecidableEq, Repr

/-- Embeds `Member(name, type, description, source_config, value)`. -/
structure Member where
  name : Str
  type : Option Str
  description : Str
  sourceConfig : Option Str
  value : Option Str
deriving DecidableEq, Repr

/-- Embeds `Property(name, type, description, source_config, value)`. -/
structure PropItem where
  name : Str
  type : Option Str
  description : Str
  sourceConfig : Option Str
  value : Option Str
deriving DecidableEq, Repr

/-- Embeds `Details(signature, sections, members, properties)`. -/
structure Details where
  signature : Option Str
  sections : Option (List DocSection)
  members : Option (List Member)
  properties : Option (List PropItem)
deriving DecidableEq, Repr

/-- Embeds `DocEntry`; `ex` is the `example` dict, modelled as the optional
`(language, code)` pair (`example` is a reserved word in Lean). -/
structure DocEntry where
  title : Str
  lib : Str
  kind : Str
  description : Str
  ex : Option (Str × Str)
  details : Details
  docUrl : Str
deriving DecidableEq, Repr

/-- Per-item contribution of a section item: +4 name, +3 type,
+2 description (case-insensitive substring tests of the whole query). -/
def itemScore (q : Str) (it : SecItem) : Nat :=
  (if q <:+: lowerStr (it.name.getD []) then 4 else 0) +
  (if q <:+: lowerStr (it.type.getD []) then 3 else 0) +
  (if q <:+: lowerStr (it.description.getD []) then 2 else 0)

/-- Per-section contribution: +4 for the section title plus the items. -/
def sectionScore (q : Str) (s : DocSection) : Nat :=
  (if q <:+: lowerStr s.title then 4 else 0) + (s.items.map (itemScore q)).sum

/-- Per-member contribution: +4 name, +3 value, +2 description. -/
def memberScore (q : Str) (m : Member) : Nat :=
  (if q <:+: lowerStr m.name then 4 else 0) +
  (if q <:+: lowerStr (m.value.getD []) then 3 else 0) +
  (if q <:+: lowerStr m.description then 2 else 0)

/-- Per-property contribution: +4 name, +3 type, +2 description. -/
def propScore (q : Str) (p : PropItem) : Nat :=
  (if q <:+: lowerStr p.name then 4 else 0) +
  (if q <:+: lowerStr (p.type.getD []) then 3 else 0) +
  (if q <:+: lowerStr p.description then 2 else 0)

/-- The additive score `DocSearch.search` computes for one entry against
the (already lower-cased) query `q`.  `if e.details.signature and ...`
tests Python truthiness, hence the non-emptiness conjunct; iterating over
`None` collections contributes 0, which `Option.getD []` models. -/
def entryScore (e : DocEntry) (q : Str) : Nat :=
  (if q <:+: lowerStr e.title then 10 else 0) +
  (match e.details.signature with
   | some s => if s ≠ [] ∧ q <:+: lowerStr s then 9 else 0
   | none => 0) +
  (if q <:+: lowerStr e.lib then 7 else 0) +
  (if q <:+: lowerStr e.description then 5 else 0) +
  ((e.details.sections.getD []).map (sectionScore q)).sum +
  ((e.details.members.getD []).map (memberScore q)).sum +
  ((e.details.properties.getD []).map (propScore q)).sum

/-- The sort key order of `scored.sort(key=lambda x: (-x[0], len(x[1].title)))`:
higher score first, ties by shorter title first. -/
def pairLe (a b : Nat × DocEntry) : Prop :=
  b.1 < a.1 ∨ (a.1 = b.1 ∧ a.2.title.length ≤ b.2.title.length)

instance : DecidableRel pairLe := fun a b => by unfold pairLe; exact inferInstance

instance : IsTotal (Nat × DocEntry) pairLe :=
  ⟨by intro a b; unfold pairLe; omega⟩

instance : IsTrans (Nat × DocEntry) pairLe :=
  ⟨by intro a b c hab hbc; unfold pairLe at *; omega⟩

/-- Embeds `DocSearch.search(query, limit)`: score every entry, keep positive
scores, stable-sort by the key above, truncate, drop the scores. -/
def docSearch (entries : List DocEntry) (query : Str) (limit : Nat) : List DocEntry :=
  let q := lowerStr query
  let scored := entries.filterMap (fun e =>
    let score := entryScore e q
    if 0 < score then some (score, e) else none)
  ((List.insertionSort pairLe scored).take limit).map Prod.snd

/-!
Core raw-markup search (`src/core/search.py` `Search.search`).  The
regex-driven helpers `_calculate_score`, `_extract_title` and
`_extract_preview` are taken as parameters; every claim about this variant
is proved for all instantiations, hence for the concrete regex versions.
-/

/-- Embeds `SearchResult(path, title, score, preview)`. -/
structure SearchResult where
  path : Str
  title : Str
  score : Int
  preview : Str
deriving DecidableEq, Repr

/-- Embeds `os.path.basename`: the part after the last `/`. -/
def basename (path : Str) : Str :=
  match (splitCh '/' path).reverse with
  | b :: _ => b
  | [] => []

/-- The stem of `os.path.splitext`: cut at the last dot provided a non-dot
character precedes it. -/
def splitExtStem (b : Str) : Str :=
  match splitFirstCh '.' b.reverse with
  | (_, none) => b
  | (_, some stemRev) =>
    if (stemRev.reverse.dropWhile (fun c => c = '.')).isEmpty then b else stemRev.reverse

/-- The sort key order of `results.sort(key=lambda x: (-x.score, x.path))`:
higher score first, ties in ascending path order. -/
def resLe (a b : SearchResult) : Prop :=
  b.score < a.score ∨ (a.score = b.score ∧ lexLe a.path b.path = true)

instance : DecidableRel resLe := fun a b => by unfold resLe; exact inferInstance

/-- The per-path body of the `Search.search` loop: skip non-`.xml` paths,
score, and build a `SearchResult` when the score is positive. -/
def corePathResult (scoreFn : Str → List Str → Bool → Int) (titleFn : Str → Str)
    (previewFn : Str → List Str → Str) (terms : List Str) (pc : Str × Str) :
    Option SearchResult :=
  let path := pc.1
  let content := pc.2
  if ¬ (lit (".xml") <:+ lowerStr path) then none
  else
    let isMethod := decide (lit ("basic method") <:+: lowerStr path) ||
      decide (lit ("stream method") <:+: lowerStr path) ||
      decide (lit ("advanced method") <:+: lowerStr path)
    let score := scoreFn content terms isMethod
    if 0 < score then
      let t0 := titleFn content
      let title0 := if t0.isEmpty then splitExtStem (basename path) else t0
      let title :=
        if lit ("ntgcalls") <:+: lowerStr path then lit ("[NTgCalls] ") ++ title0
        else if lit ("pytgcalls") <:+: lowerStr path then lit ("[PyTgCalls] ") ++ title0
        else title0
      some ⟨path, title, score, previewFn content terms⟩
    else none

/-- Embeds `Search.search(query, limit)` with the regex helpers abstracted. -/
def coreSearch (docsMap : List (Str × Str)) (scoreFn : Str → List Str → Bool → Int)
    (titleFn : Str → Str) (previewFn : Str → List Str → Str)
    (query : Str) (limit : Nat) : List SearchResult :=
  let q := lowerStr (stripWS query)
  if q.isEmpty then []
  else
    let terms := (wordsWS q).filter (fun t => 1 < t.length)
    let results := docsMap.filterMap (corePathResult scoreFn titleFn previewFn terms)
    (List.insertionSort resLe results).take limit

/-!
Result formatter (`src/modules/_format.py` `format_doc_info`).
-/

/-- The section-title test `s.title.upper() == "RAISES"`. -/
def isRaisesSec (s : DocSection) : Bool :=
  decide (upperStr s.title = lit ("RAISES"))

/-- The blockquote wrapper around the joined content lines. -/
def wrapBQ (inner : Str) : Str :=
  lit ("<blockquote expandable>") ++ inner ++ lit ("</blockquote>")

/-- The first header line: escaped title, raw kind and lib. -/
def fmtHeaderBase (r : DocEntry) : Str :=
  lit ("<b>") ++ htmlEscape r.title ++ lit ("</b> <i>(") ++ r.kind ++
    lit (", ") ++ r.lib ++ lit (")</i>\n")

/-- The header: the base line plus the escaped signature when present and
non-empty (Python truthiness). -/
def fmtHeader (r : DocEntry) : Str :=
  match r.details.signature with
  | some s =>
    if s ≠ [] then fmtHeaderBase r ++ lit ("<pre>") ++ htmlEscape s ++ lit ("</pre>")
    else fmtHeaderBase r
  | none => fmtHeaderBase r

/-- One non-RAISES item bullet body: `name`, `: type`, ` — description`. -/
def itemLine (it : SecItem) : Str :=
  let tp := it.type.getD []
  let ds := stripWS (it.description.getD [])
  lit ("<code>") ++ htmlEscape (it.name.getD []) ++ lit ("</code>") ++
  (if tp ≠ [] then lit (": <i>") ++ htmlEscape tp ++ lit ("</i>") else []) ++
  (if ds ≠ [] then lit (" — ") ++ htmlEscape ds else [])

/-- RAISES bullets of one item: one bullet per non-blank line of the
stripped description, split on newlines. -/
def raisesLines (it : SecItem) : List Str :=
  (splitCh '\n' (stripWS (it.description.getD []))).filterMap (fun l =>
    if (stripWS l).isEmpty then none else some (lit ("• ") ++ htmlEscape (stripWS l)))

/-- The content lines contributed by one section (RAISES sections are
skipped entirely when `includeRaises` is false). -/
def sectionLines (includeRaises : Bool) (s : DocSection) : List Str :=
  if isRaisesSec s && !includeRaises then []
  else
    (lit ("<b>") ++ htmlEscape s.title ++ lit ("</b>")) ::
    s.items.flatMap (fun it =>
      if isRaisesSec s then raisesLines it else [lit ("• ") ++ itemLine it])

/-- One enum-member bullet. -/
def memberLine (m : Member) : Str :=
  lit ("• ") ++ lit ("<code>") ++ htmlEscape m.name ++ lit ("</code>") ++
  (match m.value with
   | some v => if v ≠ [] then lit (" = <code>") ++ htmlEscape v ++ lit ("</code>") else []
   | none => []) ++
  (if m.description ≠ [] then lit (" — ") ++ htmlEscape m.description else [])

/-- One property bullet. -/
def propLine (p : PropItem) : Str :=
  lit ("• ") ++ lit ("<code>") ++ htmlEscape p.name ++ lit ("</code>") ++
  (match p.type with
   | some t => if t ≠ [] then lit (" -> <i>") ++ htmlEscape t ++ lit ("</i>") else []
   | none => []) ++
  (if p.description ≠ [] then lit (" — ") ++ htmlEscape p.description else [])

/-- The description entry of the `content` list (when non-empty). -/
def descLines (r : DocEntry) : List Str :=
  if r.description ≠ [] then [htmlEscape r.description] else []

/-- The example entries of the `content` list: the header interpolates the
language raw, the code is stripped and escaped (`_code`). -/
def exLines (r : DocEntry) : List Str :=
  match r.ex with
  | some lc =>
    if lc.2 ≠ [] then
      [lit ("<b>Example (") ++ lc.1 ++ lit ("):</b>\n"),
       lit ("<code>") ++ htmlEscape (stripWS lc.2) ++ lit ("</code>")]
    else []
  | none => []

/-- All section content lines. -/
def secLinesAll (r : DocEntry) (includeRaises : Bool) : List Str :=
  (r.details.sections.getD []).flatMap (sectionLines includeRaises)

/-- The members block (header plus bullets) when any member exists. -/
def memLines (r : DocEntry) : List Str :=
  if (r.details.members.getD []).isEmpty then []
  else lit ("<b>Members:</b>") :: (r.details.members.getD []).map memberLine

/-- The properties block (header plus bullets) when any property exists. -/
def propLines (r : DocEntry) : List Str :=
  if (r.details.properties.getD []).isEmpty then []
  else lit ("<b>Properties:</b>") :: (r.details.properties.getD []).map propLine

/-- The `content` list built by `format_doc_info` past the misc early
return: description, example, sections, members, properties. -/
def contentLines (r : DocEntry) (includeRaises : Bool) : List Str :=
  descLines r ++ exLines r ++ secLinesAll r includeRaises ++ memLines r ++ propLines r

/-- Embeds `format_doc_info(r, include_raises)`: for a misc record with a
description the function returns early with the description only. -/
def formatDocInfo (r : DocEntry) (includeRaises : Bool) : Str :=
  if r.description ≠ [] ∧ r.kind = lit ("misc") then
    fmtHeader r ++ [ '\n'] ++ wrapBQ (htmlEscape r.description)
  else
    fmtHeader r ++ [ '\n'] ++ wrapBQ (joinNL (contentLines r includeRaises))

/-!
The escaped images of the record fields that `format_doc_info` interpolates
(under the same conditions the code renders them).  Claim C7 shows each of
these occurs in the output; the example language is the one field the code
interpolates raw.
-/

/-- Escaped field images contributed by one item of a section. -/
def itemPieces (raisesFlag : Bool) (it : SecItem) : List Str :=
  if raisesFlag then
    (splitCh '\n' (stripWS (it.description.getD []))).filterMap (fun l =>
      if (stripWS l).isEmpty then none else some (htmlEscape (stripWS l)))
  else
    [htmlEscape (it.name.getD [])] ++
    (if it.type.getD [] ≠ [] then [htmlEscape (it.type.getD [])] else []) ++
    (if stripWS (it.description.getD []) ≠ [] then [htmlEscape (stripWS (it.description.getD []))] else [])

/-- Escaped field images contributed by one section. -/
def secPieces (includeRaises : Bool) (s : DocSection) : List Str :=
  if isRaisesSec s && !includeRaises then []
  else htmlEscape s.title :: s.items.flatMap (itemPieces (isRaisesSec s))

/-- Escaped field images contributed by one member. -/
def memPieces (m : Member) : List Str :=
  [htmlEscape m.name] ++
  (match m.value with
   | some v => if v ≠ [] then [htmlEscape v] else []
   | none => []) ++
  (if m.description ≠ [] then [htmlEscape m.description] else [])

/-- Escaped field images contributed by one property. -/
def propPieces (p : PropItem) : List Str :=
  [htmlEscape p.name] ++
  (match p.type with
   | some t => if t ≠ [] then [htmlEscape t] else []
   | none => []) ++
  (if p.description ≠ [] then [htmlEscape p.description] else [])

/-- Escaped signature image (when rendered). -/
def escSigPieces (r : DocEntry) : List Str :=
  match r.details.signature with
  | some s => if s ≠ [] then [htmlEscape s] else []
  | none => []

/-- Escaped example-code image (when rendered). -/
def escExPieces (r : DocEntry) : List Str :=
  match r.ex with
  | some lc => if lc.2 ≠ [] then [htmlEscape (stripWS lc.2)] else []
  | none => []

/-- All escaped field images the formatter interpolates for a record,
mirroring its control flow (title and signature in the header; the rest
only past the misc early return). -/
def escPieces (r : DocEntry) (includeRaises : Bool) : List Str :=
  [htmlEscape r.title] ++ escSigPieces r ++ descLines r ++
  (if r.description ≠ [] ∧ r.kind = lit ("misc") then []
   else
     escExPieces r ++
     (r.details.sections.getD []).flatMap (secPieces includeRaises) ++
     (r.details.members.getD []).flatMap memPieces ++
     (r.details.properties.getD []).flatMap propPieces)

/-- The record score as the specification words it, written independently
of `entryScore` for the refinement claim C3: an additive integer score
with fixed contributions from case-insensitive substring tests of the
whole query; "+9 for signature when a signature exists" reads the record's
signature as existing when it is present and non-empty. -/
def specRecordScore (e : DocEntry) (q : Str) : Nat :=
  (if q <:+: lowerStr e.title then 10 else 0) +
  (if e.details.signature.getD [] ≠ [] ∧ q <:+: lowerStr (e.details.signature.getD []) then 9 else 0) +
  (if q <:+: lowerStr e.lib then 7 else 0) +
  (if q <:+: lowerStr e.description then 5 else 0) +
  ((e.details.sections.getD []).map (fun s =>
    (if q <:+: lowerStr s.title then 4 else 0) +
    (s.items.map (fun it =>
      (if q <:+: lowerStr (it.name.getD []) then 4 else 0) +
      (if q <:+: lowerStr (it.type.getD []) then 3 else 0) +
      (if q <:+: lowerStr (it.description.getD []) then 2 else 0))).sum)).sum +
  ((e.details.members.getD []).map (fun m =>
    (if q <:+: lowerStr m.name then 4 else 0) +
    (if q <:+: lowerStr (m.value.getD []) then 3 else 0) +
    (if q <:+: lowerStr m.description then 2 else 0))).sum +
  ((e.details.properties.getD []).map (fun p =>
    (if q <:+: lowerStr p.name then 4 else 0) +
    (if q <:+: lowerStr (p.type.getD []) then 3 else 0) +
    (if q <:+: lowerStr p.description then 2 else 0))).sum

/-!
Small helper lemmas about the substring relation and joins.
-/

theorem subRfl (l : Str) : l <:+: l := ⟨[], [], by simp⟩

theorem subExtR {p a : Str} (b : Str) (h : p <:+: a) : p <:+: a ++ b := by
  obtain ⟨u, v, rfl⟩ := h
  exact ⟨u, v ++ b, by simp⟩

theorem subExtL {p b : Str} (a : Str) (h : p <:+: b) : p <:+: a ++ b := by
  obtain ⟨u, v, rfl⟩ := h
  exact ⟨a ++ u, v, by simp⟩

theorem subMid (a c p : Str) : p <:+: a ++ p ++ c := ⟨a, c, rfl⟩

theorem subJoin : ∀ {l : List Str} {c : Str}, c ∈ l → c <:+: joinNL l
  | [], _, h => absurd h (List.not_mem_nil _)
  | [x], c, h => by
    rcases List.mem_singleton.mp h with rfl
    exact subRfl c
  | x :: y :: xs, c, h => by
    rcases List.mem_cons.mp h with rfl | h2
    · show c <:+: c ++ [ '\n'] ++ joinNL (y :: xs)
      exact ⟨[], [ '\n'] ++ joinNL (y :: xs), by simp⟩
    · have ih : c <:+: joinNL (y :: xs) := subJoin h2
      show c <:+: x ++ [ '\n'] ++ joinNL (y :: xs)
      exact subExtL (x ++ [ '\n']) ih

/-- C1 helper: the page used as the failing input, carrying a title but no
description-bearing node anywhere. -/
def blankPage : XElem := xe ("page") [] none [xe ("h1") [] (some ("T")) []]

/-- C1: the built record's description is NOT always of length ≥ 1: for a
page with no description text the builder computes `""`, substitutes
`" "`, and then strips it away again (`(description or " ").strip()` at
gen.py:403), storing the empty string.  The claimed invariant fails; the
`or " "` fallback makes the intent clear, so this is a code bug. -/
theorem C1_description_empty_on_blank_page :
    recordDescription (lit ("/x")) blankPage [] = [] ∧
    (recordDescription (lit ("/x")) blankPage []).length = 0 := by
  decide

/-- C3: the record scorer computes exactly the additive contributions the
specification lists (whole lower-cased query, +10 title, +9 existing
signature, +7 library, +5 description, per section +4 title and +4/+3/+2
item fields, per member +4/+3/+2, per property +4/+3/+2). -/
theorem C3_record_scorer_matches_spec (e : DocEntry) (q : Str) :
    entryScore e q = specRecordScore e q := by
  unfold entryScore specRecordScore sectionScore itemScore memberScore propScore
  cases hs : e.details.signature <;> simp

/-- C9 counterexample record: title `play`, library `w`, description `a`. -/
def e9 : DocEntry :=
  ⟨lit ("play"), lit ("w"), lit ("method"), lit ("a"), none, ⟨none, none, none, none⟩, lit ("u")⟩

/-- C9 is false as stated: extending the query `play` by the term `a` —
which does match an additional field of the record (its description) —
drops the record's score from 10 to 0, because the scorer uses the whole
query as one substring. -/
theorem C9_counterexample :
    (lit ("a") <:+: lowerStr e9.description) ∧
    lit ("play a") = lit ("play") ++ lit (" ") ++ lit ("a") ∧
    entryScore e9 (lit ("play a")) < entryScore e9 (lit ("play")) := by
  decide

/-- Monotonicity of one weighted contribution under query extension. -/
theorem contribLe (w : Nat) {q1 q2 : Str} (s : Str) (h : q1 <:+: q2) :
    (if q2 <:+: s then w else 0) ≤ (if q1 <:+: s then w else 0) := by
  by_cases h2 : q2 <:+: s
  · rw [if_pos h2, if_pos (h.trans h2)]
  · rw [if_neg h2]
    exact Nat.zero_le _

/-- C9 amended: the record scorer is antitone in the query: extending the
query (in particular appending a further term) can only lose substring
matches, so the score never increases; it can strictly decrease even when
the added term matches an additional field (see the counterexample). -/
theorem C9_score_antitone (e : DocEntry) (q1 q2 : Str) (h : q1 <:+: q2) :
    entryScore e q2 ≤ entryScore e q1 := by
  unfold entryScore
  have hsig : (match e.details.signature with
      | some s => if s ≠ [] ∧ q2 <:+: lowerStr s then 9 else 0
      | none => 0) ≤ (match e.details.signature with
      | some s => if s ≠ [] ∧ q1 <:+: lowerStr s then 9 else 0
      | none => 0) := by
    cases e.details.signature with
    | none => exact Nat.le_refl _
    | some s =>
      show (if s ≠ [] ∧ q2 <:+: lowerStr s then 9 else 0) ≤
        (if s ≠ [] ∧ q1 <:+: lowerStr s then 9 else 0)
      by_cases h2 : s ≠ [] ∧ q2 <:+: lowerStr s
      · rw [if_pos h2, if_pos ⟨h2.1, h.trans h2.2⟩]
      · rw [if_neg h2]
        exact Nat.zero_le _
  have hsec : ((e.details.sections.getD []).map (sectionScore q2)).sum ≤
      ((e.details.sections.getD []).map (sectionScore q1)).sum := by
    refine List.sum_le_sum ?_
    intro s _
    unfold sectionScore
    refine Nat.add_le_add (contribLe 4 _ h) (List.sum_le_sum ?_)
    intro it _
    unfold itemScore
    exact Nat.add_le_add (Nat.add_le_add (contribLe 4 _ h) (contribLe 3 _ h)) (contribLe 2 _ h)
  have hmem : ((e.details.members.getD []).map (memberScore q2)).sum ≤
      ((e.details.members.getD []).map (memberScore q1)).sum := by
    refine List.sum_le_sum ?_
    intro m _
    unfold memberScore
    exact Nat.add_le_add (Nat.add_le_add (contribLe 4 _ h) (contribLe 3 _ h)) (contribLe 2 _ h)
  have hprop : ((e.details.properties.getD []).map (propScore q2)).sum ≤
      ((e.details.properties.getD []).map (propScore q1)).sum := by
    refine List.sum_le_sum ?_
    intro p _
    unfold propScore
    exact Nat.add_le_add (Nat.add_le_add (contribLe 4 _ h) (contribLe 3 _ h)) (contribLe 2 _ h)
  have h10 := contribLe 10 (lowerStr e.title) h
  have h7 := contribLe 7 (lowerStr e.lib) h
  have h5 := contribLe 5 (lowerStr e.description) h
  omega

/-- C9 witness: the antitonicity theorem applied at the counterexample
record and the concrete query extension. -/
theorem C9_score_antitone_witness :
    entryScore e9 (lit ("play a")) ≤ entryScore e9 (lit ("play")) :=
  C9_score_antitone e9 (lit ("play")) (lit ("play a")) (by decide)

/-- C6 is false as stated for `normalize_items`: a leading bare text
fragment does NOT get folded into a page-level description — it creates a
fresh `DocItem` with an empty name carrying the text. -/
theorem C6_counterexample :
    normItems [ .txt (lit ("B"))] = [⟨[], none, lit ("B"), none, none⟩] ∧
    normItems [ .txt (lit ("B"))] ≠ [] := by
  decide

/-- Appending to the description of the last element of a snoc list. -/
theorem updLastDescApp (add : Str) :
    ∀ (pre : List DocItem) (x : DocItem),
      updLastDesc add (pre ++ [x]) = pre ++ [{ x with description := x.description ++ add }]
  | [], x => rfl
  | a :: pre, x => by
    cases pre with
    | nil => rfl
    | cons b pre2 =>
      show a :: updLastDesc add ((b :: pre2) ++ [x]) = _
      rw [updLastDescApp add (b :: pre2) x]
      rfl

/-- C6 amended: with a prior `Item` in the block, a bare text fragment is
appended (space-separated) to that item's description — in
`normalize_items` and in `handle_member_block` alike (the concrete run
realises the claim's `[{name:"x", desc:"A"}, {text:"B"}] ⇒ {name:"x",
description:"A B"}` example).  But when the block has produced no item
yet, only `handle_member_block` folds the text into the page-level
description; `normalize_items` instead creates a placeholder item with an
empty name holding the text. -/
theorem C6_item_continuation :
    (∀ (l : List RawItem) (t : Str) (pre : List DocItem) (x : DocItem),
       normItems l = pre ++ [x] →
       normItems (l ++ [ .txt t]) =
         pre ++ [{ x with description := x.description ++ ' ' :: stripWS t }]) ∧
    (∀ t : Str, normItems [ .txt t] = [⟨[], none, stripWS t, none, none⟩]) ∧
    (∀ (cfg : List (Str × Str)) (dp : List Str) (ms : List DocItem) (t : Str),
       stripWS t ≠ [] →
       stepMember cfg ⟨dp, ms, false⟩ (XElem.mk (lit ("text")) [] (some t) none .nil) =
         ⟨dp ++ [stripWS t], ms, false⟩) ∧
    (handleMemberBlock [] ⟨[], [], false⟩
        [xe ("category-title") [] (some ("x")) [],
         xe ("text") [] (some ("A")) [],
         xe ("text") [] (some ("B")) []] =
      ⟨[], [⟨lit ("x"), none, lit ("A B"), none, none⟩], true⟩) := by
  refine ⟨?_, ?_, ?_, by decide⟩
  · intro l t pre x hl
    have : normItems (l ++ [ .txt t]) = stepNorm (normItems l) (.txt t) := by
      simp [normItems, List.foldl_append]
    rw [this, hl]
    show (if !(pre ++ [x]).isEmpty then updLastDesc (' ' :: stripWS t) (pre ++ [x])
      else (pre ++ [x]) ++ [⟨[], none, stripWS t, none, none⟩]) = _
    rw [if_pos (by simp), updLastDescApp]
  · intro t
    rfl
  · intro cfg dp ms t ht
    have hne : (stripWS t).isEmpty = false := by
      cases hstrip : stripWS t with
      | nil => exact absurd hstrip ht
      | cons a l => rfl
    unfold stepMember
    simp only [XElem.tag, XElem.text, Option.getD_some]
    rw [if_neg (by decide), if_neg (by decide), if_neg (by decide), if_pos trivial, hne]
    rw [if_neg (by decide)]
    unfold mbAbsorb
    simp

/-- C6 witness: the continuation rule applied at the claim's concrete
example shapes. -/
theorem C6_item_continuation_witness :
    normItems ([ .raw (lit ("x"))] ++ [ .txt (lit ("B"))]) =
      [] ++ [⟨lit ("x"), none, [] ++ ' ' :: stripWS (lit ("B")), none, none⟩] ∧
    stepMember [] ⟨[], [], false⟩ (XElem.mk (lit ("text")) [] (some (lit ("A"))) none .nil) =
      ⟨[] ++ [stripWS (lit ("A"))], [], false⟩ :=
  ⟨C6_item_continuation.1 [ .raw (lit ("x"))] (lit ("B")) []
      ⟨lit ("x"), none, [], none, none⟩ (by decide),
   C6_item_continuation.2.2.1 [] [] [] (lit ("A")) (by decide)⟩

/-- C2 counterexample record store: a single ordinary entry. -/
def e0 : DocEntry :=
  ⟨lit ("play"), lit ("PyTgCalls"), lit ("method"), lit ("starts playback"), none,
    ⟨none, none, none, none⟩, lit ("u")⟩

/-- C2 is false as stated for the record-based variant: the empty query is
a substring of every field, so `DocSearch.search("", 10)` on a non-empty
index returns entries, not `[]` (there is no empty-query guard in
`DocSearch.search`). -/
theorem C2_counterexample : docSearch [e0] [] 10 ≠ [] := by decide

/-- C2 amended: only the raw-markup variant (`Search.search`) guards the
empty or whitespace-only query and returns `[]`; the record-based
`DocSearch.search` has no such guard, and on any non-empty index with a
positive limit an empty query returns a non-empty result list. -/
theorem C2_empty_query_behaviour :
    (∀ (docsMap : List (Str × Str)) (scoreFn : Str → List Str → Bool → Int)
       (titleFn : Str → Str) (previewFn : Str → List Str → Str) (q : Str) (limit : Nat),
       stripWS q = [] → coreSearch docsMap scoreFn titleFn previewFn q limit = []) ∧
    (∀ (entries : List DocEntry) (limit : Nat),
       entries ≠ [] → 0 < limit → docSearch entries [] limit ≠ []) := by
  constructor
  · intro docsMap scoreFn titleFn previewFn q limit hq
    unfold coreSearch
    rw [hq]
    rfl
  · intro entries limit hne hlim
    have hpos : ∀ e : DocEntry, 0 < entryScore e (lowerStr []) := by
      intro e
      have hnil : lowerStr [] <:+: lowerStr e.title :=
        ⟨[], lowerStr e.title, by simp [lowerStr]⟩
      unfold entryScore
      rw [if_pos hnil]
      omega
    have hlen : ∀ es : List DocEntry,
        (es.filterMap (fun e =>
          let score := entryScore e (lowerStr [])
          if 0 < score then some (score, e) else none)).length = es.length := by
      intro es
      induction es with
      | nil => rfl
      | cons e es ih =>
        simp only [List.filterMap]
        rw [if_pos (hpos e)]
        simp [ih]
    intro hout
    have hlen2 := congrArg List.length hout
    unfold docSearch at hlen2
    simp only [List.length_map, List.length_take, List.length_nil] at hlen2
    rw [(List.perm_insertionSort pairLe _).length_eq, hlen] at hlen2
    have : 0 < entries.length := List.length_pos.mpr hne
    omega

/-- C2 witness: both amended behaviours at concrete inputs. -/
theorem C2_empty_query_behaviour_witness :
    coreSearch [(lit ("a.xml"), lit ("c"))] (fun _ _ _ => 1) (fun _ => []) (fun _ _ => [])
        (lit ("  ")) 5 = [] ∧
    docSearch [e0] [] 10 ≠ [] :=
  ⟨C2_empty_query_behaviour.1 [(lit ("a.xml"), lit ("c"))] (fun _ _ _ => 1) (fun _ => [])
      (fun _ _ => []) (lit ("  ")) 5 (by decide),
   C2_empty_query_behaviour.2 [e0] 10 (by decide) (by decide)⟩

/-- C4: the record search output never contains a zero-score record, is
sorted by descending score with ties in ascending title length, and has at
most `limit` elements. -/
theorem C4_ranking (entries : List DocEntry) (query : Str) (limit : Nat) :
    (∀ e ∈ docSearch entries query limit, 0 < entryScore e (lowerStr query)) ∧
    List.Pairwise (fun e1 e2 =>
      entryScore e2 (lowerStr query) < entryScore e1 (lowerStr query) ∨
      (entryScore e1 (lowerStr query) = entryScore e2 (lowerStr query) ∧
        e1.title.length ≤ e2.title.length)) (docSearch entries query limit) ∧
    (docSearch entries query limit).length ≤ limit := by
  have hout : docSearch entries query limit =
      ((List.insertionSort pairLe (entries.filterMap (fun e =>
        let score := entryScore e (lowerStr query)
        if 0 < score then some (score, e) else none))).take limit).map Prod.snd := rfl
  have hmemScored : ∀ p ∈ entries.filterMap (fun e =>
      let score := entryScore e (lowerStr query)
      if 0 < score then some (score, e) else none),
      p.1 = entryScore p.2 (lowerStr query) ∧ 0 < p.1 := by
    intro p hp
    rcases List.mem_filterMap.mp hp with ⟨e, _, hfe⟩
    dsimp only at hfe
    by_cases h0 : 0 < entryScore e (lowerStr query)
    · rw [if_pos h0] at hfe
      cases hfe
      exact ⟨rfl, h0⟩
    · rw [if_neg h0] at hfe
      exact absurd hfe (by simp)
  have hmemSorted : ∀ p ∈ List.insertionSort pairLe (entries.filterMap (fun e =>
      let score := entryScore e (lowerStr query)
      if 0 < score then some (score, e) else none)),
      p.1 = entryScore p.2 (lowerStr query) ∧ 0 < p.1 := by
    intro p hp
    exact hmemScored p ((List.perm_insertionSort pairLe _).mem_iff.mp hp)
  refine ⟨?_, ?_, ?_⟩
  · intro e he
    rw [hout] at he
    rcases List.mem_map.mp he with ⟨p, hpt, rfl⟩
    have hp2 := hmemSorted p (List.mem_of_mem_take hpt)
    rw [← hp2.1]
    exact hp2.2
  · have hs : List.Pairwise pairLe (List.insertionSort pairLe (entries.filterMap (fun e =>
        let score := entryScore e (lowerStr query)
        if 0 < score then some (score, e) else none))) :=
      List.sorted_insertionSort pairLe _
    have htake := hs.sublist (List.take_sublist limit _)
    rw [hout]
    refine List.pairwise_map.mpr ?_
    refine List.Pairwise.imp_of_mem ?_ htake
    intro a b ha hb hab
    have ha2 := hmemSorted a (List.mem_of_mem_take ha)
    have hb2 := hmemSorted b (List.mem_of_mem_take hb)
    unfold pairLe at hab
    rcases hab with h | ⟨h1, h2⟩
    · left
      rw [← ha2.1, ← hb2.1]
      exact h
    · right
      refine ⟨?_, h2⟩
      rw [← ha2.1, ← hb2.1, h1]
  · rw [hout]
    simp only [List.length_map]
    exact List.length_take_le _ _

/-- C4 witness: the ranking properties instantiated at a concrete store,
query and limit. -/
theorem C4_ranking_witness :
    (∀ e ∈ docSearch [e0] (lit ("play")) 5, 0 < entryScore e (lowerStr (lit ("play")))) ∧
    List.Pairwise (fun e1 e2 =>
      entryScore e2 (lowerStr (lit ("play"))) < entryScore e1 (lowerStr (lit ("play"))) ∨
      (entryScore e1 (lowerStr (lit ("play"))) = entryScore e2 (lowerStr (lit ("play"))) ∧
        e1.title.length ≤ e2.title.length)) (docSearch [e0] (lit ("play")) 5) ∧
    (docSearch [e0] (lit ("play")) 5).length ≤ 5 :=
  C4_ranking [e0] (lit ("play")) 5

/-- The comparison `lexLe` is total. -/
theorem lexLe_total : ∀ a b : Str, lexLe a b = true ∨ lexLe b a = true
  | [], _ => Or.inl rfl
  | _ :: _, [] => Or.inr rfl
  | x :: xs, y :: ys => by
    rcases lt_trichotomy x y with h | h | h
    · left
      simp [lexLe, h]
    · subst h
      rcases lexLe_total xs ys with ih | ih
      · left
        simp [lexLe, lt_irrefl, ih]
      · right
        simp [lexLe, lt_irrefl, ih]
    · right
      simp [lexLe, h]

/-- The comparison `lexLe` is transitive. -/
theorem lexLe_trans : ∀ a b c : Str,
    lexLe a b = true → lexLe b c = true → lexLe a c = true
  | [], _, _, _, _ => rfl
  | _ :: _, [], _, hab, _ => by simp [lexLe] at hab
  | _ :: _, _ :: _, [], _, hbc => by simp [lexLe] at hbc
  | x :: xs, y :: ys, z :: zs, hab, hbc => by
    by_cases hxy : x < y
    · by_cases hyz : y < z
      · simp [lexLe, lt_trans hxy hyz]
      · by_cases hzy : z < y
        · simp [lexLe, hyz, hzy] at hbc
        · have hyzeq : y = z := le_antisymm (not_lt.mp hzy) (not_lt.mp hyz)
          subst hyzeq
          simp [lexLe, hxy]
    · by_cases hyx : y < x
      · simp [lexLe, hxy, hyx] at hab
      · have hxyeq : x = y := le_antisymm (not_lt.mp hyx) (not_lt.mp hxy)
        subst hxyeq
        simp only [lexLe, lt_irrefl, if_false] at hab
        by_cases hyz : x < z
        · simp [lexLe, hyz]
        · by_cases hzy : z < x
          · simp [lexLe, hyz, hzy] at hbc
          · have : x = z := le_antisymm (not_lt.mp hzy) (not_lt.mp hyz)
            subst this
            simp only [lexLe, lt_irrefl, if_false] at hbc ⊢
            exact lexLe_trans xs ys zs hab hbc

instance : IsTotal SearchResult resLe := by
  constructor
  intro a b
  unfold resLe
  rcases Int.lt_trichotomy a.score b.score with h | h | h
  · right
    exact Or.inl h
  · rcases lexLe_total a.path b.path with hp | hp
    · left
      exact Or.inr ⟨h, hp⟩
    · right
      exact Or.inr ⟨h.symm, hp⟩
  · left
    exact Or.inl h

instance : IsTrans SearchResult resLe := by
  constructor
  intro a b c hab hbc
  unfold resLe at *
  rcases hab with h1 | ⟨e1, l1⟩ <;> rcases hbc with h2 | ⟨e2, l2⟩
  · exact Or.inl (lt_trans h2 h1)
  · exact Or.inl (by omega)
  · exact Or.inl (by omega)
  · exact Or.inr ⟨e1.trans e2, lexLe_trans _ _ _ l1 l2⟩

/-- C10: the raw-markup search only returns results for `.xml` paths
(case-insensitively), all with strictly positive score; the output is at
most `limit` long, sorted by descending score with ties in ascending
lexicographic path order — for any instantiation of the regex scorer,
title extractor and preview extractor. -/
theorem C10_raw_search (docsMap : List (Str × Str)) (scoreFn : Str → List Str → Bool → Int)
    (titleFn : Str → Str) (previewFn : Str → List Str → Str) (query : Str) (limit : Nat) :
    (∀ r ∈ coreSearch docsMap scoreFn titleFn previewFn query limit,
       (lit (".xml") <:+ lowerStr r.path) ∧ 0 < r.score) ∧
    List.Pairwise (fun r1 r2 => r2.score < r1.score ∨
      (r1.score = r2.score ∧ lexLe r1.path r2.path = true))
      (coreSearch docsMap scoreFn titleFn previewFn query limit) ∧
    (coreSearch docsMap scoreFn titleFn previewFn query limit).length ≤ limit := by
  by_cases hq : (lowerStr (stripWS query)).isEmpty = true
  · have hout : coreSearch docsMap scoreFn titleFn previewFn query limit = [] := by
      unfold coreSearch
      rw [if_pos hq]
    rw [hout]
    refine ⟨by intro r hr; exact absurd hr (List.not_mem_nil r), List.Pairwise.nil, by simp⟩
  · have hout : coreSearch docsMap scoreFn titleFn previewFn query limit =
        (List.insertionSort resLe (docsMap.filterMap (corePathResult scoreFn titleFn previewFn
          ((wordsWS (lowerStr (stripWS query))).filter (fun t => 1 < t.length))))).take limit := by
      unfold coreSearch
      rw [if_neg hq]
    have hmem : ∀ r ∈ docsMap.filterMap (corePathResult scoreFn titleFn previewFn
        ((wordsWS (lowerStr (stripWS query))).filter (fun t => 1 < t.length))),
        (lit (".xml") <:+ lowerStr r.path) ∧ 0 < r.score := by
      intro r hr
      rcases List.mem_filterMap.mp hr with ⟨pc, _, hf⟩
      unfold corePathResult at hf
      dsimp only at hf
      by_cases hx : ¬ (lit (".xml") <:+ lowerStr pc.1)
      · rw [if_pos hx] at hf
        exact absurd hf (by simp)
      · rw [if_neg hx] at hf
        by_cases h0 : 0 < scoreFn pc.2
            ((wordsWS (lowerStr (stripWS query))).filter (fun t => 1 < t.length))
            (decide (lit ("basic method") <:+: lowerStr pc.1) ||
             decide (lit ("stream method") <:+: lowerStr pc.1) ||
             decide (lit ("advanced method") <:+: lowerStr pc.1))
        · rw [if_pos h0] at hf
          cases hf
          exact ⟨not_not.mp hx, h0⟩
        · rw [if_neg h0] at hf
          exact absurd hf (by simp)
    have hmemSorted : ∀ r ∈ List.insertionSort resLe (docsMap.filterMap
        (corePathResult scoreFn titleFn previewFn
          ((wordsWS (lowerStr (stripWS query))).filter (fun t => 1 < t.length)))),
        (lit (".xml") <:+ lowerStr r.path) ∧ 0 < r.score := by
      intro r hr
      exact hmem r ((List.perm_insertionSort resLe _).mem_iff.mp hr)
    refine ⟨?_, ?_, ?_⟩
    · intro r hr
      rw [hout] at hr
      exact hmemSorted r (List.mem_of_mem_take hr)
    · have hs := List.sorted_insertionSort resLe (docsMap.filterMap
        (corePathResult scoreFn titleFn previewFn
          ((wordsWS (lowerStr (stripWS query))).filter (fun t => 1 < t.length))))
      rw [hout]
      have htake := hs.sublist (List.take_sublist limit _)
      refine htake.imp ?_
      intro r1 r2 h12
      exact h12
    · rw [hout]
      exact List.length_take_le _ _

/-- C10 witness: the properties instantiated at a concrete document map
and scorer. -/
theorem C10_raw_search_witness :
    (∀ r ∈ coreSearch [(lit ("a.xml"), lit ("c"))] (fun _ _ _ => 5) (fun _ => lit ("t"))
        (fun _ _ => []) (lit ("qq")) 3,
       (lit (".xml") <:+ lowerStr r.path) ∧ 0 < r.score) ∧
    List.Pairwise (fun r1 r2 => r2.score < r1.score ∨
      (r1.score = r2.score ∧ lexLe r1.path r2.path = true))
      (coreSearch [(lit ("a.xml"), lit ("c"))] (fun _ _ _ => 5) (fun _ => lit ("t"))
        (fun _ _ => []) (lit ("qq")) 3) ∧
    (coreSearch [(lit ("a.xml"), lit ("c"))] (fun _ _ _ => 5) (fun _ => lit ("t"))
      (fun _ _ => []) (lit ("qq")) 3).length ≤ 3 :=
  C10_raw_search [(lit ("a.xml"), lit ("c"))] (fun _ _ _ => 5) (fun _ => lit ("t"))
    (fun _ _ => []) (lit ("qq")) 3

/-- Filtering with a stronger predicate yields at most as many elements. -/
theorem filterLenLe {α : Type} (p q : α → Bool) (h : ∀ a, p a = true → q a = true) :
    ∀ l : List α, (l.filter p).length ≤ (l.filter q).length := by
  intro l
  induction l with
  | nil => simp
  | cons x xs ih =>
    by_cases hx : p x = true
    · simp only [List.filter, hx, h x hx]
      simpa using ih
    · simp only [List.filter]
      cases hq : q x <;> simp [hx] <;> omega

/-- The number of distinct option ids not yet in `seen` — the quantity the
resolver strictly decreases on every descent into a reference. -/
def unseenCnt (root : XElem) (seen : List Str) : Nat :=
  (optionIds root).dedup.countP (fun i => decide (¬ i ∈ seen))

/-- Growing `seen` never increases the unseen count. -/
theorem unseenMono (root : XElem) (pre seen : List Str) :
    unseenCnt root (pre ++ seen) ≤ unseenCnt root seen := by
  refine List.countP_mono_left ?_
  intro a _ ha
  simp only [decide_eq_true_eq] at *
  intro hmem
  exact ha (List.mem_append_right pre hmem)

/-- Adding an unseen id strictly decreases the count of list members not
in `seen`, provided the id is a member. -/
theorem countUnseenDec (seen : List Str) (cid : Str) (hnew : ¬ cid ∈ seen) :
    ∀ l : List Str, cid ∈ l →
      l.countP (fun i => decide (¬ i ∈ cid :: seen)) <
        l.countP (fun i => decide (¬ i ∈ seen)) := by
  intro l hl
  have hstep : ∀ x : Str, decide (¬ x ∈ cid :: seen) = true → decide (¬ x ∈ seen) = true := by
    intro x hx
    simp only [decide_eq_true_eq] at *
    intro hmem2
    exact hx (List.mem_cons_of_mem cid hmem2)
  induction l with
  | nil => exact absurd hl (List.not_mem_nil cid)
  | cons a as ih =>
    rw [List.countP_cons, List.countP_cons]
    have hmono : as.countP (fun i => decide (¬ i ∈ cid :: seen)) ≤
        as.countP (fun i => decide (¬ i ∈ seen)) :=
      List.countP_mono_left (fun x _ hx => hstep x hx)
    rcases List.mem_cons.mp hl with rfl | hd2
    · have h1 : (decide (¬ cid ∈ cid :: seen)) = false := by simp
      have h2 : (decide (¬ cid ∈ seen)) = true := by simpa using hnew
      rw [h1, h2]
      simpa using Nat.lt_succ_of_le hmono
    · have ihr := ih hd2
      have hhead : (if (decide (¬ a ∈ cid :: seen)) = true then 1 else 0) ≤
          (if (decide (¬ a ∈ seen)) = true then 1 else 0) := by
        by_cases ha : decide (¬ a ∈ cid :: seen) = true
        · rw [if_pos ha, if_pos (hstep a ha)]
        · rw [if_neg ha]
          exact Nat.zero_le _
      omega

/-- Adding an unseen referencable id strictly decreases the unseen count. -/
theorem unseenDec (root : XElem) (seen : List Str) (cid : Str)
    (hmem : cid ∈ optionIds root) (hnew : ¬ cid ∈ seen) :
    unseenCnt root (cid :: seen) < unseenCnt root seen :=
  countUnseenDec seen cid hnew _ (List.mem_dedup.mpr hmem)

/-- The initial value bounds a `foldl Nat.max`. -/
theorem foldlMaxInitLe : ∀ (l : List Nat) (a : Nat), a ≤ l.foldl Nat.max a
  | [], _ => Nat.le_refl _
  | x :: xs, a =>
    Nat.le_trans (Nat.le_max_left a x) (foldlMaxInitLe xs (Nat.max a x))

/-- Every member bounds a `foldl Nat.max`. -/
theorem memLeFoldlMax : ∀ (l : List Nat) (a x : Nat), x ∈ l → x ≤ l.foldl Nat.max a
  | [], _, x, h => absurd h (List.not_mem_nil x)
  | y :: ys, a, x, h => by
    rcases List.mem_cons.mp h with rfl | h2
    · exact Nat.le_trans (Nat.le_max_right a x) (foldlMaxInitLe ys (Nat.max a x))
    · exact memLeFoldlMax ys (Nat.max a y) x h2

/-- The resolver only ever adds to the shared `seen` set: a successful run
returns `seen` with some prefix of new ids pushed on. -/
theorem resolveSeen (root : XElem) :
    ∀ (f : Nat) (cs : List XElem) (seen ps s' : _),
      resolveGo root f cs seen = some (ps, s') → ∃ pre, s' = pre ++ seen := by
  intro f
  induction f with
  | zero =>
    intro cs seen ps s' h
    exact absurd h (by simp [resolveGo])
  | succ f ih =>
    intro cs seen ps s' h
    cases cs with
    | nil =>
      simp only [resolveGo, Option.some.injEq, Prod.mk.injEq] at h
      exact ⟨[], by rw [← h.2]; simp⟩
    | cons c rest =>
      simp only [resolveGo] at h
      by_cases htag : c.tag = lit ("config")
      · rw [if_pos htag] at h
        by_cases hseen : (getAttr c (lit ("id"))).getD [] ∈ seen
        · rw [if_pos hseen] at h
          exact ih rest seen ps s' h
        · rw [if_neg hseen] at h
          cases hfind : findOption root ((getAttr c (lit ("id"))).getD []) with
          | some opt =>
            rw [hfind] at h
            dsimp only at h
            cases hrec : resolveGo root f opt.children ((getAttr c (lit ("id"))).getD [] :: seen) with
            | none =>
              rw [hrec] at h
              simp at h
            | some pr =>
              rw [hrec] at h
              obtain ⟨parts1, seen2⟩ := pr
              obtain ⟨pre1, hpre1⟩ := ih _ _ _ _ hrec
              dsimp only at h
              cases hrec2 : resolveGo root f rest seen2 with
              | none =>
                rw [hrec2] at h
                simp at h
              | some pr2 =>
                rw [hrec2] at h
                obtain ⟨ps2, s3⟩ := pr2
                obtain ⟨pre2, hpre2⟩ := ih _ _ _ _ hrec2
                simp only [Option.some.injEq, Prod.mk.injEq] at h
                refine ⟨pre2 ++ pre1 ++ [(getAttr c (lit ("id"))).getD []], ?_⟩
                rw [← h.2, hpre2, hpre1]
                simp
          | none =>
            rw [hfind] at h
            dsimp only at h
            cases hrec : resolveGo root f rest ((getAttr c (lit ("id"))).getD [] :: seen) with
            | none =>
              rw [hrec] at h
              simp at h
            | some pr =>
              rw [hrec] at h
              obtain ⟨ps2, s2⟩ := pr
              obtain ⟨pre1, hpre1⟩ := ih _ _ _ _ hrec
              simp only [Option.some.injEq, Prod.mk.injEq] at h
              refine ⟨pre1 ++ [(getAttr c (lit ("id"))).getD []], ?_⟩
              rw [← h.2, hpre1]
              simp
      · rw [if_neg htag] at h
        cases hrec : resolveGo root f rest seen with
        | none =>
          rw [hrec] at h
          simp at h
        | some pr =>
          rw [hrec] at h
          obtain ⟨ps2, s2⟩ := pr
          obtain ⟨pre1, hpre1⟩ := ih _ _ _ _ hrec
          simp only [Option.some.injEq, Prod.mk.injEq] at h
          exact ⟨pre1, by rw [← h.2, hpre1]⟩

/-- A successfully found option contributes its id to `optionIds` and its
size to `maxBody`. -/
theorem findOptionFacts (root : XElem) (cid : Str) (opt : XElem)
    (hfind : findOption root cid = some opt) :
    cid ∈ optionIds root ∧ opt.children.length + 1 ≤ maxBody root := by
  have hopt : opt ∈ findChildren root (lit ("option")) := List.mem_of_find?_eq_some hfind
  have hpred := List.find?_some hfind
  have heq : getAttr opt (lit ("id")) = some cid := of_decide_eq_true hpred
  constructor
  · unfold optionIds
    refine List.mem_map.mpr ⟨opt, hopt, ?_⟩
    rw [heq]
    rfl
  · unfold maxBody
    exact memLeFoldlMax _ 0 _ (List.mem_map.mpr ⟨opt, hopt, rfl⟩)

/-- Fuel sufficiency: with a budget of one more than the number of
children, plus a full body's worth per distinct unseen referencable id,
the resolver never runs out of fuel — for any document, cyclic references
included. -/
theorem resolveFuelOk (root : XElem) :
    ∀ (f : Nat) (cs : List XElem) (seen : List Str),
      cs.length + 1 + unseenCnt root seen * (maxBody root + 1) ≤ f →
      (resolveGo root f cs seen).isSome = true := by
  intro f
  induction f with
  | zero =>
    intro cs seen hb
    exfalso
    generalize unseenCnt root seen * (maxBody root + 1) = X at hb
    omega
  | succ f ih =>
    intro cs seen hb
    cases cs with
    | nil => simp [resolveGo]
    | cons c rest =>
      simp only [resolveGo]
      by_cases htag : c.tag = lit ("config")
      · rw [if_pos htag]
        by_cases hseen : (getAttr c (lit ("id"))).getD [] ∈ seen
        · rw [if_pos hseen]
          refine ih rest seen ?_
          generalize unseenCnt root seen * (maxBody root + 1) = X at hb ⊢
          simp only [List.length_cons] at hb
          omega
        · rw [if_neg hseen]
          cases hfind : findOption root ((getAttr c (lit ("id"))).getD []) with
          | some opt =>
            obtain ⟨hcid, hbody⟩ := findOptionFacts root _ opt hfind
            have hdec := unseenDec root seen _ hcid hseen
            have hmul1 : (unseenCnt root ((getAttr c (lit ("id"))).getD [] :: seen) + 1) *
                (maxBody root + 1) ≤ unseenCnt root seen * (maxBody root + 1) :=
              Nat.mul_le_mul_right _ (Nat.succ_le_of_lt hdec)
            have hexp1 : (unseenCnt root ((getAttr c (lit ("id"))).getD [] :: seen) + 1) *
                (maxBody root + 1) =
                unseenCnt root ((getAttr c (lit ("id"))).getD [] :: seen) * (maxBody root + 1) +
                  (maxBody root + 1) := by ring
            have h1 : opt.children.length + 1 +
                unseenCnt root ((getAttr c (lit ("id"))).getD [] :: seen) * (maxBody root + 1) ≤ f := by
              generalize unseenCnt root ((getAttr c (lit ("id"))).getD [] :: seen) *
                (maxBody root + 1) = A at hmul1 hexp1 ⊢
              generalize unseenCnt root seen * (maxBody root + 1) = B at hmul1 hb
              simp only [List.length_cons] at hb
              omega
            obtain ⟨pr, hrec⟩ := Option.isSome_iff_exists.mp (ih opt.children _ h1)
            dsimp only
            rw [hrec]
            obtain ⟨parts1, seen2⟩ := pr
            dsimp only
            obtain ⟨pre1, hpre1⟩ := resolveSeen root f opt.children _ parts1 seen2 hrec
            have hmono2 : unseenCnt root seen2 ≤
                unseenCnt root ((getAttr c (lit ("id"))).getD [] :: seen) := by
              rw [hpre1]
              exact unseenMono root pre1 _
            have hmul2 : (unseenCnt root seen2 + 1) * (maxBody root + 1) ≤
                unseenCnt root seen * (maxBody root + 1) := by
              refine Nat.le_trans (Nat.mul_le_mul_right _ ?_) hmul1
              omega
            have hexp2 : (unseenCnt root seen2 + 1) * (maxBody root + 1) =
                unseenCnt root seen2 * (maxBody root + 1) + (maxBody root + 1) := by ring
            have h2 : rest.length + 1 + unseenCnt root seen2 * (maxBody root + 1) ≤ f := by
              generalize unseenCnt root seen2 * (maxBody root + 1) = A at hmul2 hexp2 ⊢
              generalize unseenCnt root seen * (maxBody root + 1) = B at hmul2 hb
              simp only [List.length_cons] at hb
              omega
            obtain ⟨pr2, hrec2⟩ := Option.isSome_iff_exists.mp (ih rest seen2 h2)
            rw [hrec2]
            obtain ⟨ps2, s3⟩ := pr2
            simp
          | none =>
            have hmono1 : unseenCnt root ((getAttr c (lit ("id"))).getD [] :: seen) ≤
                unseenCnt root seen :=
              unseenMono root [(getAttr c (lit ("id"))).getD []] seen
            have hmul1 : unseenCnt root ((getAttr c (lit ("id"))).getD [] :: seen) *
                (maxBody root + 1) ≤ unseenCnt root seen * (maxBody root + 1) :=
              Nat.mul_le_mul_right _ hmono1
            have h1 : rest.length + 1 +
                unseenCnt root ((getAttr c (lit ("id"))).getD [] :: seen) * (maxBody root + 1) ≤ f := by
              generalize unseenCnt root ((getAttr c (lit ("id"))).getD [] :: seen) *
                (maxBody root + 1) = A at hmul1 ⊢
              generalize unseenCnt root seen * (maxBody root + 1) = B at hmul1 hb
              simp only [List.length_cons] at hb
              omega
            obtain ⟨pr, hrec⟩ := Option.isSome_iff_exists.mp (ih rest _ h1)
            dsimp only
            rw [hrec]
            obtain ⟨ps2, s2⟩ := pr
            simp
      · rw [if_neg htag]
        have h1 : rest.length + 1 + unseenCnt root seen * (maxBody root + 1) ≤ f := by
          generalize unseenCnt root seen * (maxBody root + 1) = X at hb ⊢
          simp only [List.length_cons] at hb
          omega
        obtain ⟨pr, hrec⟩ := Option.isSome_iff_exists.mp (ih rest seen h1)
        rw [hrec]
        obtain ⟨ps2, s2⟩ := pr
        simp

/-- C5: the resolver terminates on every reference document — the fuel
budget `bigFuel` used by `parseConfig` is provably never exhausted, so
every option id receives a finite resolved text; and a reference to an id
already in the visited set of the same top-level resolution is skipped
outright (the step consumes the config child without touching the
document). -/
theorem C5_resolver_terminates (root : XElem) :
    ((findChildren root (lit ("option"))).all
      (fun o => (resolveNode root (bigFuel root) o).isSome)) = true ∧
    (parseConfig root).map Prod.fst = optionIds root ∧
    (∀ (f : Nat) (id : Str) (txt tl : Option Str) (cs : XList) (rest : List XElem)
       (seen : List Str),
       resolveGo root (f + 1)
         (XElem.mk (lit ("config")) [(lit ("id"), id)] txt tl cs :: rest) (id :: seen) =
       resolveGo root f rest (id :: seen)) := by
  refine ⟨?_, ?_, ?_⟩
  · refine List.all_eq_true.mpr ?_
    intro o ho
    have hbody : o.children.length + 1 ≤ maxBody root :=
      memLeFoldlMax _ 0 _ (List.mem_map.mpr ⟨o, ho, rfl⟩)
    have hun : unseenCnt root [] ≤ (optionIds root).dedup.length :=
      List.countP_le_length _
    have hb : o.children.length + 1 + unseenCnt root [] * (maxBody root + 1) ≤ bigFuel root := by
      unfold bigFuel
      have hmul : unseenCnt root [] * (maxBody root + 1) ≤
          (optionIds root).dedup.length * (maxBody root + 1) :=
        Nat.mul_le_mul_right _ hun
      have hexp : ((optionIds root).dedup.length + 1) * (maxBody root + 1) =
          (optionIds root).dedup.length * (maxBody root + 1) + (maxBody root + 1) := by ring
      generalize unseenCnt root [] * (maxBody root + 1) = A at hmul ⊢
      generalize (optionIds root).dedup.length * (maxBody root + 1) = B at hmul hexp
      omega
    have hsome := resolveFuelOk root (bigFuel root) o.children [] hb
    unfold resolveNode
    obtain ⟨pr, hrec⟩ := Option.isSome_iff_exists.mp hsome
    rw [hrec]
    obtain ⟨a, b⟩ := pr
    simp
  · simp only [parseConfig, optionIds, List.map_map]
    rfl
  · intro f id txt tl cs rest seen
    simp only [resolveGo]
    have htag : (XElem.mk (lit ("config")) [(lit ("id"), id)] txt tl cs).tag = lit ("config") := rfl
    rw [if_pos htag]
    have hattr : (getAttr (XElem.mk (lit ("config")) [(lit ("id"), id)] txt tl cs)
        (lit ("id"))).getD [] = id := rfl
    rw [hattr, if_pos (List.mem_cons_self id seen)]

/-- A document with the reference cycle A → B → A, each option also
carrying literal text. -/
def cycDoc : XElem :=
  xe ("root") [] none
    [xe ("option") [(lit ("id"), lit ("A"))] none
      [xe ("text") [] (some ("a")) [], xe ("config") [(lit ("id"), lit ("B"))] none []],
     xe ("option") [(lit ("id"), lit ("B"))] none
      [xe ("text") [] (some ("b")) [], xe ("config") [(lit ("id"), lit ("A"))] none []]]

example : parseConfig cycDoc =
    [(lit ("A"), lit ("a\nb\na")), (lit ("B"), lit ("b\na\nb"))] := by decide

/-- The record with all RAISES-titled sections removed. -/
def dropRaises (r : DocEntry) : DocEntry :=
  let secs := r.details.sections.map (fun l => l.filter (fun s => !(isRaisesSec s)))
  { r with details := { r.details with sections := secs } }

/-- C8 counterexample record: kind `misc` with a description and a RAISES
section — the misc early return drops the section even when error notes
are requested. -/
def r8 : DocEntry :=
  ⟨lit ("t"), lit ("l"), lit ("misc"), lit ("d"), none,
    ⟨none, some [⟨lit ("RAISES"), [⟨some (lit ("E")), none, some (lit ("A\nB"))⟩]⟩], none, none⟩,
    lit ("u")⟩

/-- C8 is false as stated: `r8` has a RAISES section whose item has two
description lines, yet rendering with the include-error-notes flag true
emits no bullet at all (the misc early return fires first). -/
theorem C8_counterexample :
    r8.details.sections =
      some [⟨lit ("RAISES"), [⟨some (lit ("E")), none, some (lit ("A\nB"))⟩]⟩] ∧
    upperStr (lit ("RAISES")) = lit ("RAISES") ∧
    ¬ (lit ("• ") <:+: formatDocInfo r8 true) := by
  decide

/-- Removing RAISES sections does not change what a non-RAISES render
emits. -/
theorem secDropEq : ∀ secs : List DocSection,
    (secs.filter (fun s => !(isRaisesSec s))).flatMap (sectionLines false) =
      secs.flatMap (sectionLines false) := by
  intro secs
  induction secs with
  | nil => rfl
  | cons s ss ih =>
    cases hrs : isRaisesSec s with
    | true =>
      have hskip : sectionLines false s = [] := by
        unfold sectionLines
        rw [hrs]
        rfl
      simp [List.filter_cons, hrs, hskip, ih]
    | false =>
      simp [List.filter_cons, hrs, ih]

/-- Counting a guarded `filterMap` by the corresponding filter. -/
theorem lenGuard (g : Str → Str) : ∀ xs : List Str,
    (xs.filterMap (fun l => if (stripWS l).isEmpty then none else some (g l))).length =
      (xs.filter (fun l => !(stripWS l).isEmpty)).length := by
  intro xs
  induction xs with
  | nil => rfl
  | cons x xs ih =>
    cases hb : (stripWS x).isEmpty with
    | true =>
      have hx : stripWS x = [] := by simpa using hb
      simp [List.filterMap_cons, List.filter_cons, hx, hb]
      simpa using ih
    | false =>
      have hx : ¬ stripWS x = [] := by simpa using hb
      simp [List.filterMap_cons, List.filter_cons, hx, hb]
      simpa using ih

/-- C8 amended: with the flag false the output equals the output on the
record with every RAISES section removed (no RAISES-derived bullet exists);
with the flag true a RAISES section contributes its header plus exactly one
bullet per non-blank line of each item's description — except that a
`misc`-kind record with a non-empty description renders only its
description (the early return) and produces no section content at all. -/
theorem C8_raises_rendering :
    (∀ r : DocEntry, formatDocInfo r false = formatDocInfo (dropRaises r) false) ∧
    (∀ s : DocSection, isRaisesSec s = true →
       (sectionLines true s).length =
         1 + (s.items.map (fun it =>
           ((splitCh '\n' (stripWS (it.description.getD []))).filter
             (fun l => !(stripWS l).isEmpty)).length)).sum) ∧
    (∀ (r : DocEntry) (flag : Bool), r.kind = lit ("misc") → r.description ≠ [] →
       formatDocInfo r flag = fmtHeader r ++ [ '\n'] ++ wrapBQ (htmlEscape r.description)) := by
  refine ⟨?_, ?_, ?_⟩
  · intro r
    unfold formatDocInfo
    have hd : (dropRaises r).description = r.description := rfl
    have hk : (dropRaises r).kind = r.kind := rfl
    have hh : fmtHeader (dropRaises r) = fmtHeader r := rfl
    have hc : contentLines (dropRaises r) false = contentLines r false := by
      unfold contentLines
      have h1 : descLines (dropRaises r) = descLines r := rfl
      have h2 : exLines (dropRaises r) = exLines r := rfl
      have h3 : memLines (dropRaises r) = memLines r := rfl
      have h4 : propLines (dropRaises r) = propLines r := rfl
      have h5 : secLinesAll (dropRaises r) false = secLinesAll r false := by
        unfold secLinesAll
        have h6 : ((dropRaises r).details.sections.getD []) =
            (r.details.sections.getD []).filter (fun s => !(isRaisesSec s)) := by
          cases hs : r.details.sections with
          | none => simp [dropRaises, hs]
          | some l => simp [dropRaises, hs]
        rw [h6, secDropEq]
      rw [h1, h2, h3, h4, h5]
    rw [hd, hk, hh, hc]
  · intro s hrs
    unfold sectionLines
    rw [hrs]
    simp only [Bool.not_true, Bool.and_false, Bool.false_eq_true, if_false, List.length_cons]
    rw [List.length_flatMap]
    rw [Nat.add_comm]
    congr 1
    refine congrArg List.sum ?_
    refine List.map_congr_left ?_
    intro it _
    simp only [Function.comp, if_true]
    exact lenGuard (fun l => lit ("• ") ++ htmlEscape (stripWS l)) _
  · intro r flag hk hd
    unfold formatDocInfo
    rw [if_pos ⟨hd, hk⟩]

/-- C8 witness: the amended behaviours instantiated at the RAISES section
and the misc record of the counterexample. -/
theorem C8_raises_rendering_witness :
    formatDocInfo r8 false = formatDocInfo (dropRaises r8) false ∧
    (sectionLines true (⟨lit ("RAISES"), [⟨some (lit ("E")), none, some (lit ("A\nB"))⟩]⟩ :
        DocSection)).length =
      1 + ([(⟨some (lit ("E")), none, some (lit ("A\nB"))⟩ : SecItem)].map (fun it =>
        ((splitCh '\n' (stripWS (it.description.getD []))).filter
          (fun l => !(stripWS l).isEmpty)).length)).sum ∧
    formatDocInfo r8 true = fmtHeader r8 ++ [ '\n'] ++ wrapBQ (htmlEscape r8.description) :=
  ⟨C8_raises_rendering.1 r8,
   C8_raises_rendering.2.1 ⟨lit ("RAISES"), [⟨some (lit ("E")), none, some (lit ("A\nB"))⟩]⟩
     (by decide),
   C8_raises_rendering.2.2 r8 true (by decide) (by decide)⟩

/-- An infix of the blockquote body is an infix of the wrapped quote. -/
theorem subWrap {c inner : Str} (h : c <:+: inner) : c <:+: wrapBQ inner := by
  obtain ⟨u, v, rfl⟩ := h
  exact ⟨lit ("<blockquote expandable>") ++ u, v ++ lit ("</blockquote>"), by simp [wrapBQ]⟩

/-- An infix of the header is an infix of the rendered record. -/
theorem subHeaderOut (r : DocEntry) (flag : Bool) {s : Str} (h : s <:+: fmtHeader r) :
    s <:+: formatDocInfo r flag := by
  unfold formatDocInfo
  by_cases hc : r.description ≠ [] ∧ r.kind = lit ("misc")
  · rw [if_pos hc]
    exact subExtR _ (subExtR _ h)
  · rw [if_neg hc]
    exact subExtR _ (subExtR _ h)

/-- A content line is an infix of the rendered record (outside the misc
early return). -/
theorem subContentOut (r : DocEntry) (flag : Bool) {c : Str}
    (hmem : c ∈ contentLines r flag) (hcond : ¬ (r.description ≠ [] ∧ r.kind = lit ("misc"))) :
    c <:+: formatDocInfo r flag := by
  unfold formatDocInfo
  rw [if_neg hcond]
  exact subExtL _ (subWrap (subJoin hmem))

/-- The escaped title sits inside the header. -/
theorem subHeadTitle (r : DocEntry) : htmlEscape r.title <:+: fmtHeader r := by
  have h0 : htmlEscape r.title <:+: fmtHeaderBase r := by
    unfold fmtHeaderBase
    exact subExtR _ (subExtR _ (subExtR _ (subExtR _ (subExtR _ (subExtL _ (subRfl _))))))
  unfold fmtHeader
  cases r.details.signature with
  | none => exact h0
  | some s =>
    dsimp only
    by_cases hs : s ≠ []
    · rw [if_pos hs]
      exact subExtR _ (subExtR _ (subExtR _ h0))
    · rw [if_neg hs]
      exact h0

/-- The escaped signature sits inside the header when present. -/
theorem subHeadSig (r : DocEntry) (s : Str) (hsig : r.details.signature = some s)
    (hne : s ≠ []) : htmlEscape s <:+: fmtHeader r := by
  unfold fmtHeader
  rw [hsig]
  dsimp only
  rw [if_pos hne]
  exact subExtR _ (subExtL _ (subRfl _))

/-- Every escaped piece of a non-RAISES item sits inside its bullet body. -/
theorem pieceInItemLine (it : SecItem) (p : Str) (hp : p ∈ itemPieces false it) :
    p <:+: itemLine it := by
  unfold itemPieces at hp
  rw [if_neg Bool.false_ne_true] at hp
  unfold itemLine
  show p <:+: (lit ("<code>") ++ htmlEscape (it.name.getD []) ++ lit ("</code>") ++
      (if it.type.getD [] ≠ [] then lit (": <i>") ++ htmlEscape (it.type.getD []) ++ lit ("</i>")
       else [])) ++
    (if stripWS (it.description.getD []) ≠ [] then
      lit (" — ") ++ htmlEscape (stripWS (it.description.getD [])) else [])
  simp only [List.mem_append, List.mem_singleton] at hp
  rcases hp with (rfl | hp) | hp
  · exact subExtR _ (subExtR _ (subExtR _ (subExtL _ (subRfl _))))
  · by_cases htp : it.type.getD [] ≠ []
    · rw [if_pos htp] at hp
      rcases List.mem_singleton.mp hp with rfl
      rw [if_pos htp]
      refine subExtR _ (subExtL _ ?_)
      exact subExtR _ (subExtL _ (subRfl _))
    · rw [if_neg htp] at hp
      exact absurd hp (List.not_mem_nil p)
  · by_cases hds : stripWS (it.description.getD []) ≠ []
    · rw [if_pos hds] at hp
      rcases List.mem_singleton.mp hp with rfl
      rw [if_pos hds]
      refine subExtL _ ?_
      exact subExtL _ (subRfl _)
    · rw [if_neg hds] at hp
      exact absurd hp (List.not_mem_nil p)

/-- Every escaped piece of a member sits inside its bullet. -/
theorem pieceInMemberLine (m : Member) (p : Str) (hp : p ∈ memPieces m) :
    p <:+: memberLine m := by
  unfold memPieces at hp
  unfold memberLine
  simp only [List.mem_append, List.mem_singleton] at hp
  rcases hp with (rfl | hp) | hp
  · exact subExtR _ (subExtR _ (subExtR _ (subExtL _ (subRfl _))))
  · cases hv : m.value with
    | none =>
      rw [hv] at hp
      exact absurd hp (List.not_mem_nil p)
    | some v =>
      rw [hv] at hp
      dsimp only at hp
      dsimp only
      by_cases hvne : v ≠ []
      · rw [if_pos hvne] at hp
        rcases List.mem_singleton.mp hp with rfl
        rw [if_pos hvne]
        refine subExtR _ (subExtL _ ?_)
        exact subExtR _ (subExtL _ (subRfl _))
      · rw [if_neg hvne] at hp
        exact absurd hp (List.not_mem_nil p)
  · by_cases hds : m.description ≠ []
    · rw [if_pos hds] at hp
      rcases List.mem_singleton.mp hp with rfl
      rw [if_pos hds]
      refine subExtL _ ?_
      exact subExtL _ (subRfl _)
    · rw [if_neg hds] at hp
      exact absurd hp (List.not_mem_nil p)

/-- Every escaped piece of a property sits inside its bullet. -/
theorem pieceInPropLine (q : PropItem) (p : Str) (hp : p ∈ propPieces q) :
    p <:+: propLine q := by
  unfold propPieces at hp
  unfold propLine
  simp only [List.mem_append, List.mem_singleton] at hp
  rcases hp with (rfl | hp) | hp
  · exact subExtR _ (subExtR _ (subExtR _ (subExtL _ (subRfl _))))
  · cases ht : q.type with
    | none =>
      rw [ht] at hp
      exact absurd hp (List.not_mem_nil p)
    | some v =>
      rw [ht] at hp
      dsimp only at hp
      dsimp only
      by_cases hvne : v ≠ []
      · rw [if_pos hvne] at hp
        rcases List.mem_singleton.mp hp with rfl
        rw [if_pos hvne]
        refine subExtR _ (subExtL _ ?_)
        exact subExtR _ (subExtL _ (subRfl _))
      · rw [if_neg hvne] at hp
        exact absurd hp (List.not_mem_nil p)
  · by_cases hds : q.description ≠ []
    · rw [if_pos hds] at hp
      rcases List.mem_singleton.mp hp with rfl
      rw [if_pos hds]
      refine subExtL _ ?_
      exact subExtL _ (subRfl _)
    · rw [if_neg hds] at hp
      exact absurd hp (List.not_mem_nil p)

/-- Every escaped piece of a section occurs inside one of its rendered
lines. -/
theorem pieceInSection (flag : Bool) (s : DocSection) (p : Str) (hp : p ∈ secPieces flag s) :
    ∃ c ∈ sectionLines flag s, p <:+: c := by
  unfold secPieces at hp
  unfold sectionLines
  by_cases hskip : (isRaisesSec s && !flag) = true
  · rw [if_pos hskip] at hp
    exact absurd hp (List.not_mem_nil p)
  · rw [if_neg hskip] at hp
    rw [if_neg hskip]
    rcases List.mem_cons.mp hp with rfl | hp2
    · refine ⟨lit ("<b>") ++ htmlEscape s.title ++ lit ("</b>"), List.mem_cons_self _ _, ?_⟩
      exact subExtR _ (subExtL _ (subRfl _))
    · rcases List.mem_flatMap.mp hp2 with ⟨it, hit, hpit⟩
      cases hrs : isRaisesSec s with
      | true =>
        rw [hrs] at hpit
        unfold itemPieces at hpit
        rw [if_pos rfl] at hpit
        rcases List.mem_filterMap.mp hpit with ⟨l, hl, hg⟩
        cases hemp : (stripWS l).isEmpty with
        | true =>
          rw [if_pos hemp] at hg
          simp at hg
        | false =>
          rw [if_neg (by simp [hemp])] at hg
          cases hg
          refine ⟨lit ("• ") ++ htmlEscape (stripWS l), ?_, subExtL _ (subRfl _)⟩
          refine List.mem_cons_of_mem _ ?_
          refine List.mem_flatMap.mpr ⟨it, hit, ?_⟩
          rw [if_pos rfl]
          unfold raisesLines
          refine List.mem_filterMap.mpr ⟨l, hl, ?_⟩
          rw [if_neg (by simp [hemp])]
      | false =>
        rw [hrs] at hpit
        refine ⟨lit ("• ") ++ itemLine it, ?_, subExtL _ (pieceInItemLine it p hpit)⟩
        refine List.mem_cons_of_mem _ ?_
        refine List.mem_flatMap.mpr ⟨it, hit, ?_⟩
        rw [if_neg Bool.false_ne_true]
        exact List.mem_singleton.mpr rfl

/-- C7 counterexample record: an example whose language tag is `<q>`. -/
def r7 : DocEntry :=
  ⟨lit ("t"), lit ("l"), lit ("type"), [], some (lit ("<q>"), lit ("c")),
    ⟨none, none, none, none⟩, lit ("u")⟩

set_option maxRecDepth 4000 in
/-- C7 is false as stated: the example language tag reaches the output raw
(`<q>` appears verbatim, its escaped image does not appear), so not every
record-derived substring of the output is an image of the escape
function. -/
theorem C7_counterexample :
    (lit ("<q>") <:+: formatDocInfo r7 false) ∧
    ¬ (htmlEscape (lit ("<q>")) <:+: formatDocInfo r7 false) ∧
    htmlEscape (lit ("<q>")) ≠ lit ("<q>") := by
  decide

/-- C7 amended: every listed record field except the example language is
passed through `html.escape` before interpolation — each escaped image
occurs in the output under the same conditions the code renders the field;
the example language alone is interpolated raw into the `Example (...)`
header line. -/
theorem C7_fields_escaped :
    (∀ (r : DocEntry) (flag : Bool) (p : Str),
       p ∈ escPieces r flag → p <:+: formatDocInfo r flag) ∧
    (∀ (r : DocEntry) (flag : Bool) (lang code : Str),
       r.ex = some (lang, code) → code ≠ [] →
       ¬ (r.description ≠ [] ∧ r.kind = lit ("misc")) →
       lit ("<b>Example (") ++ lang ++ lit ("):</b>\n") <:+: formatDocInfo r flag) := by
  constructor
  · intro r flag p hp
    unfold escPieces at hp
    simp only [List.mem_append, List.mem_singleton] at hp
    rcases hp with ((rfl | hsig) | hdesc) | hbig
    · exact subHeaderOut r flag (subHeadTitle r)
    · cases hs : r.details.signature with
      | none =>
        unfold escSigPieces at hsig
        rw [hs] at hsig
        exact absurd hsig (List.not_mem_nil p)
      | some s =>
        unfold escSigPieces at hsig
        rw [hs] at hsig
        dsimp only at hsig
        by_cases hne : s ≠ []
        · rw [if_pos hne] at hsig
          rcases List.mem_singleton.mp hsig with rfl
          exact subHeaderOut r flag (subHeadSig r s hs hne)
        · rw [if_neg hne] at hsig
          exact absurd hsig (List.not_mem_nil p)
    · unfold descLines at hdesc
      by_cases hd : r.description ≠ []
      · rw [if_pos hd] at hdesc
        rcases List.mem_singleton.mp hdesc with rfl
        by_cases hm : r.kind = lit ("misc")
        · unfold formatDocInfo
          rw [if_pos ⟨hd, hm⟩]
          exact subExtL _ (subWrap (subRfl _))
        · have hcond : ¬ (r.description ≠ [] ∧ r.kind = lit ("misc")) := fun hc => hm hc.2
          refine subContentOut r flag ?_ hcond
          unfold contentLines
          refine List.mem_append_left _ (List.mem_append_left _ (List.mem_append_left _
            (List.mem_append_left _ ?_)))
          unfold descLines
          rw [if_pos hd]
          exact List.mem_singleton.mpr rfl
      · rw [if_neg hd] at hdesc
        exact absurd hdesc (List.not_mem_nil p)
    · by_cases hcond : r.description ≠ [] ∧ r.kind = lit ("misc")
      · rw [if_pos hcond] at hbig
        exact absurd hbig (List.not_mem_nil p)
      · rw [if_neg hcond] at hbig
        simp only [List.mem_append] at hbig
        rcases hbig with ((hex | hsec) | hmem) | hprop
        · -- example code piece
          unfold escExPieces at hex
          cases hx : r.ex with
          | none =>
            rw [hx] at hex
            exact absurd hex (List.not_mem_nil p)
          | some lc =>
            rw [hx] at hex
            dsimp only at hex
            by_cases hcode : lc.2 ≠ []
            · rw [if_pos hcode] at hex
              rcases List.mem_singleton.mp hex with rfl
              have hmemc : (lit ("<code>") ++ htmlEscape (stripWS lc.2) ++ lit ("</code>")) ∈
                  contentLines r flag := by
                unfold contentLines
                refine List.mem_append_left _ (List.mem_append_left _ (List.mem_append_left _
                  (List.mem_append_right _ ?_)))
                unfold exLines
                rw [hx]
                dsimp only
                rw [if_pos hcode]
                exact List.mem_cons_of_mem _ (List.mem_cons_self _ _)
              exact (subExtR (lit ("</code>")) (subExtL (lit ("<code>")) (subRfl _))).trans
                (subContentOut r flag hmemc hcond)
            · rw [if_neg hcode] at hex
              exact absurd hex (List.not_mem_nil p)
        · -- section piece
          rcases List.mem_flatMap.mp hsec with ⟨s, hsm, hps⟩
          obtain ⟨c, hcmem, hpc⟩ := pieceInSection flag s p hps
          refine hpc.trans (subContentOut r flag ?_ hcond)
          unfold contentLines
          refine List.mem_append_left _ (List.mem_append_left _
            (List.mem_append_right _ ?_))
          unfold secLinesAll
          exact List.mem_flatMap.mpr ⟨s, hsm, hcmem⟩
        · -- member piece
          rcases List.mem_flatMap.mp hmem with ⟨m, hmm, hpm⟩
          refine (pieceInMemberLine m p hpm).trans (subContentOut r flag ?_ hcond)
          unfold contentLines
          refine List.mem_append_left _ (List.mem_append_right _ ?_)
          unfold memLines
          have hne : ((r.details.members.getD []).isEmpty) = false := by
            cases hms : r.details.members.getD []
            · rw [hms] at hmm
              exact absurd hmm (List.not_mem_nil m)
            · rfl
          rw [if_neg (by simp [hne])]
          exact List.mem_cons_of_mem _ (List.mem_map_of_mem memberLine hmm)
        · -- property piece
          rcases List.mem_flatMap.mp hprop with ⟨q, hqm, hpq⟩
          refine (pieceInPropLine q p hpq).trans (subContentOut r flag ?_ hcond)
          unfold contentLines
          refine List.mem_append_right _ ?_
          unfold propLines
          have hne : ((r.details.properties.getD []).isEmpty) = false := by
            cases hqs : r.details.properties.getD []
            · rw [hqs] at hqm
              exact absurd hqm (List.not_mem_nil q)
            · rfl
          rw [if_neg (by simp [hne])]
          exact List.mem_cons_of_mem _ (List.mem_map_of_mem propLine hqm)
  · intro r flag lang code hx hcode hcond
    refine subContentOut r flag ?_ hcond
    unfold contentLines
    refine List.mem_append_left _ (List.mem_append_left _ (List.mem_append_left _
      (List.mem_append_right _ ?_)))
    unfold exLines
    rw [hx]
    dsimp only
    rw [if_pos hcode]
    exact List.mem_cons_self _ _

/-- C7 witness: the escaped title of a record occurs in its rendering, and
the raw language tag of the counterexample record occurs in its rendering. -/
theorem C7_fields_escaped_witness :
    htmlEscape e0.title <:+: formatDocInfo e0 false ∧
    lit ("<b>Example (") ++ lit ("<q>") ++ lit ("):</b>\n") <:+: formatDocInfo r7 false :=
  ⟨C7_fields_escaped.1 e0 false (htmlEscape e0.title) (by decide),
   C7_fields_escaped.2 r7 false (lit ("<q>")) (lit ("c")) (by decide) (by decide) (by decide)⟩
